import Mathlib

/-! # jQuery Scoped CSS plugin: a shallow embedding of `jquery.scoped.js`

The only entry point of the plugin is `$.scoped()`.  It works on the live document through
jQuery, so the document is modelled as an arena: the list of all elements in document order,
each with the index of its parent element.  The fields of an element are exactly the pieces of
DOM state that the plugin reads or writes.

Conventions of the model:

* the plugin never adds, removes or moves a node, and a style element holds raw text only, so
  the arena keeps its shape and `.html(text)` is an assignment to the text of a node;
* the selector `style` and the test `this.nodeName != 'STYLE'` agree, as they do in an HTML
  document, where `nodeName` is upper case;
* the parent of a root element is the document node, all elements are its descendants;
* `.css('cssText', text)` stores `text` as it is;
* the cascade engine (`getComputedStyle`) is a collaborator of the plugin: the measuring
  traversal takes the function that reads the style of an element as a parameter, and this
  function may inspect the whole current document.
-/

namespace ScopedCSS

/-! ## The document -/

/-- One element of the document.  `parent = none` means that the parent node is the
document node itself (the element is a root element). -/
structure Elem where
  /-- The DOM `nodeName` (upper case in an HTML document, `"STYLE"` for a style block). -/
  nodeName : String
  /-- Index of the parent element in the arena. -/
  parent : Option Nat
  /-- Presence of the `scoped` attribute: `attr('scoped') != undefined`. -/
  scopedAttr : Bool
  /-- The tokens of the `class` attribute. -/
  classes : List String
  /-- The text content read and written by `.html()`. -/
  html : String
  /-- The per-element style override read and written by `.css('cssText', _)`. -/
  cssText : String
  /-- The value stored by `.data('original-style', _)`, `none` while it is undefined. -/
  original : Option String
deriving DecidableEq, Repr

/-- A document: all its elements in document order. -/
abbrev Doc := List Elem

/-- The part of an element that `$.scoped()` never writes. -/
def Elem.skeleton (e : Elem) : String × Option Nat × Bool :=
  (e.nodeName, e.parent, e.scopedAttr)

/-- Apply `f` to the element at index `k` (nothing happens when there is no such element). -/
def update (d : Doc) (k : Nat) (f : Elem → Elem) : Doc :=
  match d[k]? with
  | some e => d.set k (f e)
  | none => d

def nodeNameAt (d : Doc) (k : Nat) : Option String := d[k]?.map Elem.nodeName

def htmlAt (d : Doc) (k : Nat) : Option String := d[k]?.map Elem.html

def cssTextAt (d : Doc) (k : Nat) : Option String := d[k]?.map Elem.cssText

def classesAt (d : Doc) (k : Nat) : List String := (d[k]?.map Elem.classes).getD []

def originalAt (d : Doc) (k : Nat) : Option String := d[k]?.bind Elem.original

/-- The selector test `style`, and the test `this.nodeName != 'STYLE'` negated. -/
def isStyleAt (d : Doc) (k : Nat) : Bool := decide (nodeNameAt d k = some "STYLE")

/-- The result of `.parent()`: `some p` for the parent element `p`, `none` for the document node. -/
def parentAt (d : Doc) (k : Nat) : Option Nat := d[k]?.bind Elem.parent

/-- The chain of proper ancestors of `k`, nearest first.  The walk is bounded by `fuel`;
`d.length` steps always suffice in a document whose parent pointers form a tree. -/
def ancestors (d : Doc) : Nat → Nat → List Nat
  | 0, _ => []
  | fuel + 1, k =>
    match parentAt d k with
    | some p => p :: ancestors d fuel p
    | none => []

/-- Whether element `k` is a proper descendant of `root`; every element is a descendant of
the document node (`root = none`). -/
def inSubtree (d : Doc) (root : Option Nat) (k : Nat) : Bool :=
  match root with
  | none => true
  | some p => decide (p ∈ ancestors d d.length k)

/-- The node list of `root.find(sel)`: the descendants of `root` that match, in document order. -/
def find (d : Doc) (root : Option Nat) (sel : Nat → Bool) : List Nat :=
  (List.range d.length).filter (fun k => inSubtree d root k && sel k)

/-- The node list of `$('style')`: all style blocks in document order. -/
def styleBlocks (d : Doc) : List Nat :=
  find d none (isStyleAt d)

/-- The traversal `nodes.each(function(index) {...})`: the callback sees the position in the
node list, the node, and the state left by the previous calls. -/
def eachFrom {σ : Type} (f : Nat → Nat → σ → σ) : Nat → List Nat → σ → σ
  | _, [], s => s
  | i, n :: rest, s => eachFrom f (i + 1) rest (f i n s)

def each {σ : Type} (nodes : List Nat) (f : Nat → Nat → σ → σ) (s : σ) : σ :=
  eachFrom f 0 nodes s

/-! ## Element operations of jQuery -/

/-- The call `.addClass(c)`: the class is appended unless it is already there. -/
def addClass (c : String) (e : Elem) : Elem :=
  if c ∈ e.classes then e else { e with classes := e.classes ++ [c] }

/-- The call `.hasClass(c)` on the element at `k`. -/
def hasClassAt (d : Doc) (k : Nat) (c : String) : Bool := decide (c ∈ classesAt d k)

/-- The call `.html(text)`. -/
def setHtml (text : String) (e : Elem) : Elem := { e with html := text }

/-- The call `.css('cssText', text)`. -/
def setCssText (text : String) (e : Elem) : Elem := { e with cssText := text }

/-- The call `.data('original-style', text)`. -/
def setOriginal (text : String) (e : Elem) : Elem := { e with original := some text }

/-- The class name `'this_is_' + index`. -/
def thisIs (index : Nat) : String := "this_is_" ++ toString index

/-- The class name `'depends_on_' + index`. -/
def dependsOn (index : Nat) : String := "depends_on_" ++ toString index

/-! ## The plugin -/

/-- The function `isScoped(styleBlock)`. -/
def isScoped (d : Doc) (k : Nat) : Bool := (d[k]?.map Elem.scopedAttr).getD false

/-- The function `backupBlocks()`. -/
def backupBlocks (d : Doc) : Doc :=
  each (styleBlocks d) (fun _ n acc =>
    if isScoped acc n then
      match htmlAt acc n with
      | some t => update acc n (setOriginal t)
      | none => acc
    else acc) d

/-- The first traversal of `$.scoped`: "Go through once to add dependencies". -/
def addDependencies (d : Doc) : Doc :=
  each (styleBlocks d) (fun index n acc =>
    if isScoped acc n then
      let acc1 := update acc n (addClass (thisIs index))
      each (find acc1 (parentAt acc1 n) (isStyleAt acc1))
        (fun _ m a => update a m (addClass (dependsOn index))) acc1
    else acc) d

/-- The function `emptyBlocks(currentBlock)`. -/
def emptyBlocks (currentBlock : Nat) (d : Doc) : Doc :=
  each (styleBlocks d) (fun i n acc =>
    if isScoped acc n then
      if !hasClassAt acc currentBlock (dependsOn i) then
        match (styleBlocks acc)[i]? with
        | some m => update acc m (setHtml "")
        | none => acc
      else acc
    else acc) d

/-- The function `fillBlocks()`.  A call `.html(undefined)` reads and does not write. -/
def fillBlocks (d : Doc) : Doc :=
  each (styleBlocks d) (fun _ n acc =>
    if isScoped acc n then
      match originalAt acc n with
      | some t => update acc n (setHtml t)
      | none => acc
    else acc) d

/-- One call of the callback of the measuring traversal: the override is cleared on every
element, and for a non-style element the computed style is pushed on the holding area. -/
def measureStep (getStylesText : Doc → Nat → String) (n : Nat) (s : Doc × List String) :
    Doc × List String :=
  let acc := update s.1 n (setCssText "")
  if nodeNameAt acc n ≠ some "STYLE" then (acc, s.2 ++ [getStylesText acc n]) else (acc, s.2)

/-- The measuring traversal: "Read all styles and copy them to a holding area". -/
def measure (getStylesText : Doc → Nat → String) (root : Option Nat) (d : Doc) :
    Doc × List String :=
  each (find d root (fun _ => true)) (fun _ n s => measureStep getStylesText n s) (d, [])

/-- One call of the callback of the applying traversal.  `holdingArea.shift()` on an empty
array is `undefined`, and `.css('cssText', undefined)` does not write. -/
def applyStep (n : Nat) (s : Doc × List String) : Doc × List String :=
  if nodeNameAt s.1 n ≠ some "STYLE" then
    match s.2 with
    | t :: rest => (update s.1 n (setCssText t), rest)
    | [] => (s.1, [])
  else s

/-- The applying traversal: "Copy all the styles back from the holding area". -/
def applyStyles (root : Option Nat) (s : Doc × List String) : Doc × List String :=
  each (find s.1 root (fun _ => true)) (fun _ n s => applyStep n s) s

/-- The body of the second traversal of `$.scoped` for one scoped block `n`. -/
def processScope (getStylesText : Doc → Nat → String) (n : Nat) (d : Doc) : Doc :=
  let d1 := emptyBlocks n d
  let measured := measure getStylesText (parentAt d1 n) d1
  let applied := applyStyles (parentAt measured.1 n) measured
  fillBlocks applied.1

/-- The callback of the second traversal of `$.scoped`. -/
def processStep (getStylesText : Doc → Nat → String) (n : Nat) (d : Doc) : Doc :=
  if isScoped d n then processScope getStylesText n d else d

/-- The second traversal of `$.scoped`: "Go through a second time to process the scopes". -/
def processScopes (getStylesText : Doc → Nat → String) (d : Doc) : Doc :=
  each (styleBlocks d) (fun _ n acc => processStep getStylesText n acc) d

/-- The last traversal of `$.scoped`: the scoped blocks are cleared for good. -/
def clearScoped (d : Doc) : Doc :=
  each (styleBlocks d) (fun _ n acc =>
    if isScoped acc n then update acc n (setHtml "") else acc) d

/-- The entry point `$.scoped()` (`scoped` is a reserved word here). -/
def runScoped (getStylesText : Doc → Nat → String) (d : Doc) : Doc :=
  clearScoped (processScopes getStylesText (addDependencies (backupBlocks d)))

/-! ## Loop prefixes

The state of a traversal when it reaches a given position of its node list, and other
notions used to state the properties. -/

/-- The state of the measuring traversal when it reaches position `j` of its node list. -/
def measureUpTo (getStylesText : Doc → Nat → String) (root : Option Nat) (d : Doc) (j : Nat) :
    Doc × List String :=
  each ((find d root (fun _ => true)).take j) (fun _ n s => measureStep getStylesText n s) (d, [])

/-- The state of the second traversal of `$.scoped` when it reaches position `s` of the list
of style blocks. -/
def processUpTo (getStylesText : Doc → Nat → String) (d : Doc) (s : Nat) : Doc :=
  each ((styleBlocks d).take s) (fun _ n acc => processStep getStylesText n acc) d

/-- The document after the first two steps of `$.scoped()`: backup and dependency pass. -/
def prepared (d : Doc) : Doc := addDependencies (backupBlocks d)

/-- The document while the scope of the style block `n` at position `s` is measured inside
`$.scoped()`: the state of its measuring traversal at position `j`, after `emptyBlocks`.
The state at position `j + 1` is the document that `getStylesText` inspects for the node at
position `j`. -/
def whileMeasured (getStylesText : Doc → Nat → String) (d : Doc) (s n j : Nat) : Doc :=
  let d1 := emptyBlocks n (processUpTo getStylesText (prepared d) s)
  (measureUpTo getStylesText (parentAt d1 n) d1 j).1

/-- The document while the snapshots of the scope of block `n` are copied back: the state of
the applying traversal at position `j`, after the whole measuring traversal. -/
def whileApplied (getStylesText : Doc → Nat → String) (d : Doc) (s n j : Nat) : Doc :=
  let d1 := emptyBlocks n (processUpTo getStylesText (prepared d) s)
  let measured := measure getStylesText (parentAt d1 n) d1
  (each ((find measured.1 (parentAt measured.1 n) (fun _ => true)).take j)
    (fun _ m t => applyStep m t) measured).1

/-- The document at any moment between `emptyBlocks(n)` and `fillBlocks()` in the iteration of
`$.scoped()` for the style block `n` at position `s`: at position `j` of the measuring
traversal, or (`applying`) at position `j` of the applying traversal. -/
def whileProcessed (getStylesText : Doc → Nat → String) (d : Doc) (s n : Nat)
    (applying : Bool) (j : Nat) : Doc :=
  match applying with
  | false => whileMeasured getStylesText d s n j
  | true => whileApplied getStylesText d s n j

/-- No element carries a class of the form `depends_on_<index>` yet. -/
def NoMarkers (d : Doc) : Prop := ∀ k i, dependsOn i ∉ classesAt d k

/-- The parent pointers point backwards in document order, as they do in every tree. -/
def TreeShaped (d : Doc) : Prop := ∀ k p, parentAt d k = some p → p < k

/-- Every scoped style block has its current text on record. -/
def BackedUp (d : Doc) : Prop :=
  ∀ m, m ∈ styleBlocks d → isScoped d m = true → originalAt d m = htmlAt d m

/-- The value of a decimal digit character. -/
def digitValue (c : Char) : Nat := c.toNat - 48

/-! ## Sample documents -/

/-- A plain element without classes, text or override. -/
def plain (name : String) (parent : Option Nat) : Elem :=
  { nodeName := name, parent := parent, scopedAttr := false, classes := [], html := "",
    cssText := "", original := none }

/-- A scoped style block with the given classes and rule text. -/
def scopedStyle (parent : Option Nat) (classes : List String) (text : String) : Elem :=
  { nodeName := "STYLE", parent := parent, scopedAttr := true, classes := classes, html := text,
    cssText := "", original := none }

/-- A scoped block (node 1) under a `DIV`, and a second scoped block (node 3) nested in an
inner `DIV` (node 2), next to a paragraph (node 4). -/
def nestedDoc : Doc :=
  [plain "DIV" none, scopedStyle (some 0) [] "color:red;", plain "DIV" (some 0),
    scopedStyle (some 2) [] "color:blue;", plain "P" (some 2)]

/-- Two sibling `DIV`s (nodes 1 and 4) under `BODY`, each with its own scoped block (nodes 2
and 5) followed by a `DIV` (nodes 3 and 6), plus a block without the marker (node 7). -/
def siblingDoc : Doc :=
  [plain "BODY" none,
    plain "DIV" (some 0), scopedStyle (some 1) [] "color:red;", plain "DIV" (some 1),
    plain "DIV" (some 0), scopedStyle (some 4) [] "color:blue;", plain "DIV" (some 4),
    { plain "STYLE" (some 0) with html := "margin:0;" }]

/-- The document `siblingDoc` whose first scoped block already carries the class
`depends_on_1` in the page source. -/
def markedDoc : Doc :=
  [plain "BODY" none,
    plain "DIV" (some 0), scopedStyle (some 1) ["depends_on_1"] "color:red;",
    plain "DIV" (some 1),
    plain "DIV" (some 0), scopedStyle (some 4) [] "color:blue;", plain "DIV" (some 4)]

/-- The document `siblingDoc` with the scoped marker on its last style block too: a third
scoped block (node 7) directly under `BODY`, after the two sibling scopes. -/
def threeDoc : Doc :=
  [plain "BODY" none,
    plain "DIV" (some 0), scopedStyle (some 1) [] "color:red;", plain "DIV" (some 1),
    plain "DIV" (some 0), scopedStyle (some 4) [] "color:blue;", plain "DIV" (some 4),
    scopedStyle (some 0) [] "margin:0;"]

/-- A cascade engine without support for scoping: the computed style of every element is made
of the texts of all style blocks of the document, in document order. -/
def naiveCascade (d : Doc) (_ : Nat) : String :=
  String.join ((styleBlocks d).filterMap (htmlAt d))

/-- The node list of `$this.parent().find('*')` for the block `b`. -/
def scopeNodes (d : Doc) (b : Nat) : List Nat := find d (parentAt d b) (fun _ => true)

/-- The elements of the scope of block `b`: the non-style nodes of `scopeNodes`. -/
def scopeElements (d : Doc) (b : Nat) : List Nat :=
  (scopeNodes d b).filter (fun n => !isStyleAt d n)

/-- The measuring traversal for the block `b`, as `processScope` runs it. -/
def measuredScope (g : Doc → Nat → String) (d : Doc) (b : Nat) : Doc × List String :=
  measure g (parentAt d b) d

/-- The applying traversal for the block `b`, as `processScope` runs it. -/
def appliedScope (g : Doc → Nat → String) (d : Doc) (b : Nat) : Doc × List String :=
  applyStyles (parentAt (measuredScope g d b).1 b) (measuredScope g d b)

/-! ## The index-keyed path of `getStylesText`

The computed-style object `temp` is modelled by its enumerable properties in the order of
`for (var n in temp)`, every value a string; a key that is absent reads as `undefined`. -/

/-- The characters that `parseInt` skips in front of the number (white space and line
terminators of the language). -/
def isJsWhiteSpace (c : Char) : Bool :=
  decide (c.toNat ∈ [0x09, 0x0A, 0x0B, 0x0C, 0x0D, 0x20, 0xA0, 0x1680, 0x2028, 0x2029, 0x202F,
    0x205F, 0x3000, 0xFEFF]) || (decide (0x2000 ≤ c.toNat) && decide (c.toNat ≤ 0x200A))

/-- The call `parseInt(n, 10)`: optional white space, an optional sign, then the longest run
of decimal digits; `none` stands for `NaN`.  (Rounding of long digit runs to a double is left
out: it never turns a non-zero result into zero.) -/
def parseInt10 (n : String) : Option Int :=
  let body := n.toList.dropWhile isJsWhiteSpace
  let negative := body.head? = some (Char.ofNat 45)
  let unsigned :=
    if body.head? = some (Char.ofNat 45) ∨ body.head? = some (Char.ofNat 43) then body.tail
    else body
  let digits := unsigned.takeWhile Char.isDigit
  if digits = [] then none
  else
    let value : Int := (digits.foldl (fun a c => a * 10 + (c.toNat - 48)) 0 : Nat)
    some (if negative then -value else value)

/-- Truthiness of a number in a condition: `NaN` and zero are false. -/
def truthy (v : Option Int) : Bool :=
  match v with
  | some x => decide (x ≠ 0)
  | none => false

/-- The scan of `string.replace` in `camelize`, whose pattern is a run of hyphens followed by
an optional character: `afterDash` says that the scan is inside a run of hyphens.  The run is
dropped; the character after it is replaced by its upper case, unless it is a line
terminator, which `.` does not match. -/
def camelizeFrom (afterDash : Bool) : List Char → List Char
  | [] => []
  | c :: rest =>
    if c = Char.ofNat 45 then camelizeFrom true rest
    else if afterDash && !decide (c.toNat ∈ [0x0A, 0x0D, 0x2028, 0x2029]) then
      c.toUpper :: camelizeFrom false rest
    else c :: camelizeFrom false rest

/-- The function `camelize(string)`, for property names in ASCII. -/
def camelize (string : String) : String := String.mk (camelizeFrom false string.toList)

/-- The property read `temp[key]`. -/
def getProp (temp : List (String × String)) (key : String) : Option String :=
  (temp.find? (fun entry => entry.1 == key)).map Prod.snd

/-- The Firefox branch of `getStylesText(element)`, from the computed-style object on. -/
def getStylesTextFirefox (temp : List (String × String)) : String :=
  temp.foldl (fun styles entry =>
    if truthy (parseInt10 entry.1) then
      match getProp temp entry.1 with
      | some name =>
        match getProp temp (camelize name) with
        | some value => styles ++ name ++ ":" ++ value ++ ";\n"
        | none => styles
      | none => styles
    else styles) ""

/-- Whether a key is an index key: a non-empty run of decimal digits. -/
def isIndexKey (n : String) : Bool := n.toList ≠ [] && n.toList.all Char.isDigit

/-- What the specification asks of the index-keyed path: one entry for every index key whose
camel-cased property name resolves to a defined value, in key order. -/
def specStylesText (temp : List (String × String)) : String :=
  temp.foldl (fun styles entry =>
    if isIndexKey entry.1 then
      match getProp temp (camelize entry.2) with
      | some value => styles ++ entry.2 ++ ":" ++ value ++ ";\n"
      | none => styles
    else styles) ""

/-- A computed-style object with two declarations, as the index-keyed engine exposes it. -/
def computedSample : List (String × String) :=
  [("0", "color"), ("1", "font-size"), ("length", "2"), ("color", "red"),
    ("fontSize", "12px"), ("cssText", "color: red; font-size: 12px;")]

/-! ## Basic facts about `update` and `each` -/

theorem length_update (d : Doc) (k : Nat) (f : Elem → Elem) : (update d k f).length = d.length := by
  unfold update
  cases h : d[k]? <;> simp

theorem getElem?_update (d : Doc) (k j : Nat) (f : Elem → Elem) :
    (update d k f)[j]? = if j = k then d[k]?.map f else d[j]? := by
  unfold update
  cases h : d[k]? with
  | none => by_cases hj : j = k <;> simp [hj, h]
  | some e =>
    by_cases hj : j = k
    · subst hj
      have hlt : j < d.length := by
        rcases List.getElem?_eq_some_iff.1 h with ⟨hlt, _⟩
        exact hlt
      simp [h, List.getElem?_set, hlt]
    · have hne : ¬ k = j := fun hh => hj hh.symm
      simp [hj, List.getElem?_set, hne]

theorem getElem?_update_self (d : Doc) (k : Nat) (f : Elem → Elem) :
    (update d k f)[k]? = d[k]?.map f := by
  simp [getElem?_update]

theorem getElem?_update_of_ne (d : Doc) {k j : Nat} (f : Elem → Elem) (h : j ≠ k) :
    (update d k f)[j]? = d[j]? := by
  simp [getElem?_update, h]

/-- An update by a function that keeps the projection `proj` keeps it on the whole document. -/
theorem map_update {α : Type} (proj : Elem → α) (d : Doc) (k : Nat) (f : Elem → Elem)
    (hf : ∀ e, proj (f e) = proj e) : (update d k f).map proj = d.map proj := by
  apply List.ext_getElem?
  intro j
  rw [List.getElem?_map, List.getElem?_map, getElem?_update]
  by_cases hj : j = k
  · subst hj
    cases h : d[j]? <;> simp [hf]
  · simp [hj]

theorem eachFrom_append {σ : Type} (f : Nat → Nat → σ → σ) (l1 l2 : List Nat) (i : Nat) (s : σ) :
    eachFrom f i (l1 ++ l2) s = eachFrom f (i + l1.length) l2 (eachFrom f i l1 s) := by
  induction l1 generalizing i s with
  | nil => simp [eachFrom]
  | cons n rest ih =>
    show eachFrom f (i + 1) (rest ++ l2) (f i n s) = _
    rw [ih]
    simp only [eachFrom, List.length_cons]
    congr 1
    omega

/-- A traversal is the traversal of its first `j` nodes followed by that of the others. -/
theorem each_take_drop {σ : Type} (f : Nat → Nat → σ → σ) (l : List Nat) (j : Nat) (s : σ) :
    each l f s = eachFrom f (min j l.length) (l.drop j) (each (l.take j) f s) := by
  unfold each
  conv_lhs => rw [← List.take_append_drop j l]
  rw [eachFrom_append]
  simp

/-- Invariant rule for a traversal, with the position available to the invariant. -/
theorem eachFrom_invariant {σ : Type} (f : Nat → Nat → σ → σ) (P : Nat → σ → Prop)
    (l : List Nat) (i : Nat) (s : σ) (h0 : P 0 s)
    (hstep : ∀ j n t, l[j]? = some n → P j t → P (j + 1) (f (i + j) n t)) :
    P l.length (eachFrom f i l s) := by
  induction l generalizing i s P with
  | nil => simpa [eachFrom] using h0
  | cons n rest ih =>
    simp only [eachFrom, List.length_cons]
    have h1 : P 1 (f i n s) := by
      have := hstep 0 n s (by simp) h0
      simpa using this
    have := ih (fun j t => P (j + 1) t) (i + 1) (f i n s) h1 (by
      intro j m t hj hP
      have := hstep (j + 1) m t (by simpa using hj) hP
      have e : i + (j + 1) = i + 1 + j := by omega
      rw [e] at this
      exact this)
    exact this

theorem each_invariant {σ : Type} (f : Nat → Nat → σ → σ) (P : σ → Prop)
    (l : List Nat) (s : σ) (h0 : P s)
    (hstep : ∀ j n t, l[j]? = some n → P t → P (f j n t)) :
    P (each l f s) := by
  unfold each
  have := eachFrom_invariant f (fun _ t => P t) l 0 s h0 (by
    intro j n t hj hP
    simpa using hstep j n t hj hP)
  exact this

/-! ## Queries only depend on the skeleton of the document -/

section Shape

variable {d d' : Doc}

theorem length_eq_of_map {α : Type} {proj : Elem → α} (h : d'.map proj = d.map proj) :
    d'.length = d.length := by
  simpa using congrArg List.length h

theorem getElem?_map_of_map {α : Type} {proj : Elem → α} (h : d'.map proj = d.map proj)
    (k : Nat) : d'[k]?.map proj = d[k]?.map proj := by
  have := congrArg (fun l => l[k]?) h
  simpa [List.getElem?_map] using this

theorem nodeNameAt_congr (h : d'.map Elem.skeleton = d.map Elem.skeleton) (k : Nat) :
    nodeNameAt d' k = nodeNameAt d k := by
  have := congrArg (Option.map (fun x : String × Option Nat × Bool => x.1))
    (getElem?_map_of_map h k)
  simpa [nodeNameAt, Option.map_map, Function.comp_def, Elem.skeleton] using this

theorem parentAt_congr (h : d'.map Elem.skeleton = d.map Elem.skeleton) (k : Nat) :
    parentAt d' k = parentAt d k := by
  have := congrArg (fun o : Option (String × Option Nat × Bool) => o.bind (fun x => x.2.1))
    (getElem?_map_of_map h k)
  simp only [parentAt]
  cases h1 : d'[k]? <;> cases h2 : d[k]? <;> simp_all [Elem.skeleton]

theorem isScoped_congr (h : d'.map Elem.skeleton = d.map Elem.skeleton) (k : Nat) :
    isScoped d' k = isScoped d k := by
  have := getElem?_map_of_map h k
  simp only [isScoped]
  cases h1 : d'[k]? <;> cases h2 : d[k]? <;> simp_all [Elem.skeleton]

theorem isStyleAt_congr (h : d'.map Elem.skeleton = d.map Elem.skeleton) (k : Nat) :
    isStyleAt d' k = isStyleAt d k := by
  simp [isStyleAt, nodeNameAt_congr h]

theorem ancestors_congr (h : d'.map Elem.skeleton = d.map Elem.skeleton) (fuel k : Nat) :
    ancestors d' fuel k = ancestors d fuel k := by
  induction fuel generalizing k with
  | zero => rfl
  | succ fuel ih =>
    simp only [ancestors, parentAt_congr h]
    cases parentAt d k with
    | none => rfl
    | some p => simp [ih]

theorem inSubtree_congr (h : d'.map Elem.skeleton = d.map Elem.skeleton) (root : Option Nat)
    (k : Nat) : inSubtree d' root k = inSubtree d root k := by
  cases root with
  | none => rfl
  | some p => simp [inSubtree, ancestors_congr h, length_eq_of_map h]

theorem find_congr (h : d'.map Elem.skeleton = d.map Elem.skeleton) (root : Option Nat)
    {sel sel' : Nat → Bool} (hsel : ∀ k, sel' k = sel k) :
    find d' root sel' = find d root sel := by
  have e : sel' = sel := funext hsel
  subst e
  simp only [find, length_eq_of_map h]
  congr 1
  funext k
  rw [inSubtree_congr h]

theorem styleBlocks_congr (h : d'.map Elem.skeleton = d.map Elem.skeleton) :
    styleBlocks d' = styleBlocks d :=
  find_congr h none (isStyleAt_congr h)

end Shape

theorem nodup_find (d : Doc) (root : Option Nat) (sel : Nat → Bool) : (find d root sel).Nodup :=
  (List.nodup_range d.length).filter _

theorem mem_find {d : Doc} {root : Option Nat} {sel : Nat → Bool} {k : Nat} :
    k ∈ find d root sel ↔ k < d.length ∧ inSubtree d root k = true ∧ sel k = true := by
  simp [find, List.mem_filter, and_assoc]

theorem mem_styleBlocks {d : Doc} {k : Nat} :
    k ∈ styleBlocks d ↔ k < d.length ∧ isStyleAt d k = true := by
  simp [styleBlocks, mem_find, inSubtree]

theorem lt_length_of_mem_styleBlocks {d : Doc} {k : Nat} (h : k ∈ styleBlocks d) :
    k < d.length := (mem_styleBlocks.1 h).1

/-- A position of a duplicate-free node list is determined by the node found there. -/
theorem index_unique {l : List Nat} (hnd : l.Nodup) {i j n : Nat}
    (hi : l[i]? = some n) (hj : l[j]? = some n) : i = j := by
  rcases List.getElem?_eq_some_iff.1 hi with ⟨hil, _⟩
  exact List.getElem?_inj hil hnd (hi.trans hj.symm)

/-! ## What each traversal leaves alone

Every traversal is a sequence of element updates, so a projection of the elements that the
element operation keeps is kept on the whole document. -/

section Frame

variable {α : Type} (proj : Elem → α)

theorem addClass_keeps_skeleton (c : String) (e : Elem) :
    (addClass c e).skeleton = e.skeleton := by
  unfold addClass; split <;> rfl

theorem addClass_keeps_html (c : String) (e : Elem) : (addClass c e).html = e.html := by
  unfold addClass; split <;> rfl

theorem addClass_keeps_cssText (c : String) (e : Elem) : (addClass c e).cssText = e.cssText := by
  unfold addClass; split <;> rfl

theorem addClass_keeps_original (c : String) (e : Elem) :
    (addClass c e).original = e.original := by
  unfold addClass; split <;> rfl

theorem backupBlocks_map (h : ∀ t e, proj (setOriginal t e) = proj e) (d : Doc) :
    (backupBlocks d).map proj = d.map proj := by
  unfold backupBlocks
  refine each_invariant _ (fun t : Doc => t.map proj = d.map proj) _ _ rfl ?_
  intro j n t _ ht
  show List.map proj (if isScoped t n then _ else t) = _
  split
  · split
    · rw [map_update proj _ _ _ (h _)]; exact ht
    · exact ht
  · exact ht

theorem addDependencies_map (h : ∀ c e, proj (addClass c e) = proj e) (d : Doc) :
    (addDependencies d).map proj = d.map proj := by
  unfold addDependencies
  refine each_invariant _ (fun t : Doc => t.map proj = d.map proj) _ _ rfl ?_
  intro j n t _ ht
  show List.map proj (if isScoped t n then _ else t) = _
  split
  · refine each_invariant _ (fun t : Doc => t.map proj = d.map proj) _ _ ?_ ?_
    · show List.map proj (update t n _) = _
      rw [map_update proj _ _ _ (h _)]; exact ht
    · intro _ m a _ ha
      show List.map proj (update a m _) = _
      rw [map_update proj _ _ _ (h _)]; exact ha
  · exact ht

theorem emptyBlocks_map (h : ∀ t e, proj (setHtml t e) = proj e) (c : Nat) (d : Doc) :
    (emptyBlocks c d).map proj = d.map proj := by
  unfold emptyBlocks
  refine each_invariant _ (fun t : Doc => t.map proj = d.map proj) _ _ rfl ?_
  intro j n t _ ht
  show List.map proj (if isScoped t n then _ else t) = _
  split
  · split
    · split
      · rw [map_update proj _ _ _ (h _)]; exact ht
      · exact ht
    · exact ht
  · exact ht

theorem fillBlocks_map (h : ∀ t e, proj (setHtml t e) = proj e) (d : Doc) :
    (fillBlocks d).map proj = d.map proj := by
  unfold fillBlocks
  refine each_invariant _ (fun t : Doc => t.map proj = d.map proj) _ _ rfl ?_
  intro j n t _ ht
  show List.map proj (if isScoped t n then _ else t) = _
  split
  · split
    · rw [map_update proj _ _ _ (h _)]; exact ht
    · exact ht
  · exact ht

theorem clearScoped_map (h : ∀ t e, proj (setHtml t e) = proj e) (d : Doc) :
    (clearScoped d).map proj = d.map proj := by
  unfold clearScoped
  refine each_invariant _ (fun t : Doc => t.map proj = d.map proj) _ _ rfl ?_
  intro j n t _ ht
  show List.map proj (if isScoped t n then _ else t) = _
  split
  · rw [map_update proj _ _ _ (h _)]; exact ht
  · exact ht

theorem measureStep_map (h : ∀ t e, proj (setCssText t e) = proj e)
    (g : Doc → Nat → String) (n : Nat) (s : Doc × List String) :
    (measureStep g n s).1.map proj = s.1.map proj := by
  unfold measureStep
  dsimp only
  split <;> exact map_update proj _ _ _ (h _)

theorem applyStep_map (h : ∀ t e, proj (setCssText t e) = proj e)
    (n : Nat) (s : Doc × List String) :
    (applyStep n s).1.map proj = s.1.map proj := by
  unfold applyStep
  split
  · split
    · exact map_update proj _ _ _ (h _)
    · rfl
  · rfl

theorem each_measureStep_map (h : ∀ t e, proj (setCssText t e) = proj e)
    (g : Doc → Nat → String) (l : List Nat) (s : Doc × List String) :
    (each l (fun _ n s => measureStep g n s) s).1.map proj = s.1.map proj := by
  refine each_invariant _ (fun t : Doc × List String => t.1.map proj = s.1.map proj) _ _ rfl ?_
  intro j n t _ ht
  rw [measureStep_map proj h]; exact ht

theorem measure_map (h : ∀ t e, proj (setCssText t e) = proj e)
    (g : Doc → Nat → String) (root : Option Nat) (d : Doc) :
    (measure g root d).1.map proj = d.map proj :=
  each_measureStep_map proj h g _ (d, [])

theorem measureUpTo_map (h : ∀ t e, proj (setCssText t e) = proj e)
    (g : Doc → Nat → String) (root : Option Nat) (d : Doc) (j : Nat) :
    (measureUpTo g root d j).1.map proj = d.map proj :=
  each_measureStep_map proj h g _ (d, [])

theorem each_applyStep_map (h : ∀ t e, proj (setCssText t e) = proj e)
    (l : List Nat) (s : Doc × List String) :
    (each l (fun _ n s => applyStep n s) s).1.map proj = s.1.map proj := by
  refine each_invariant _ (fun t : Doc × List String => t.1.map proj = s.1.map proj) _ _ rfl ?_
  intro j n t _ ht
  rw [applyStep_map proj h]; exact ht

theorem applyStyles_map (h : ∀ t e, proj (setCssText t e) = proj e)
    (root : Option Nat) (s : Doc × List String) :
    (applyStyles root s).1.map proj = s.1.map proj :=
  each_applyStep_map proj h _ s

theorem processScope_map (h1 : ∀ t e, proj (setHtml t e) = proj e)
    (h2 : ∀ t e, proj (setCssText t e) = proj e)
    (g : Doc → Nat → String) (n : Nat) (d : Doc) :
    (processScope g n d).map proj = d.map proj := by
  unfold processScope
  simp only
  rw [fillBlocks_map proj h1, applyStyles_map proj h2, measure_map proj h2,
    emptyBlocks_map proj h1]

theorem processStep_map (h1 : ∀ t e, proj (setHtml t e) = proj e)
    (h2 : ∀ t e, proj (setCssText t e) = proj e)
    (g : Doc → Nat → String) (n : Nat) (d : Doc) :
    (processStep g n d).map proj = d.map proj := by
  unfold processStep
  split
  · exact processScope_map proj h1 h2 g n d
  · rfl

theorem each_processStep_map (h1 : ∀ t e, proj (setHtml t e) = proj e)
    (h2 : ∀ t e, proj (setCssText t e) = proj e)
    (g : Doc → Nat → String) (l : List Nat) (d : Doc) :
    (each l (fun _ n acc => processStep g n acc) d).map proj = d.map proj := by
  refine each_invariant _ (fun t : Doc => t.map proj = d.map proj) _ _ rfl ?_
  intro j n t _ ht
  rw [processStep_map proj h1 h2]; exact ht

theorem processUpTo_map (h1 : ∀ t e, proj (setHtml t e) = proj e)
    (h2 : ∀ t e, proj (setCssText t e) = proj e)
    (g : Doc → Nat → String) (d : Doc) (s : Nat) :
    (processUpTo g d s).map proj = d.map proj :=
  each_processStep_map proj h1 h2 g _ d

theorem processScopes_map (h1 : ∀ t e, proj (setHtml t e) = proj e)
    (h2 : ∀ t e, proj (setCssText t e) = proj e)
    (g : Doc → Nat → String) (d : Doc) :
    (processScopes g d).map proj = d.map proj :=
  each_processStep_map proj h1 h2 g _ d

theorem prepared_map (h1 : ∀ t e, proj (setOriginal t e) = proj e)
    (h2 : ∀ c e, proj (addClass c e) = proj e) (d : Doc) :
    (prepared d).map proj = d.map proj := by
  unfold prepared
  rw [addDependencies_map proj h2, backupBlocks_map proj h1]

end Frame

/-! ## Traversals that touch one node per step -/

/-- A traversal of a duplicate-free node list whose step `j` rewrites only the node at position
`j`, by a function `g j` of the element: the outcome, node by node. -/
theorem eachFrom_local (g : Nat → Elem → Elem) (Inv : Doc → Prop) (f : Nat → Nat → Doc → Doc)
    (l : List Nat) (hnd : l.Nodup) (i : Nat) (s : Doc) (h0 : Inv s)
    (hstep : ∀ j n t, l[j]? = some n → Inv t →
      Inv (f (i + j) n t) ∧
        ∀ m, (f (i + j) n t)[m]? = if m = n then t[m]?.map (g (i + j)) else t[m]?) :
    Inv (eachFrom f i l s) ∧ (∀ m, m ∉ l → (eachFrom f i l s)[m]? = s[m]?) ∧
      (∀ j m, l[j]? = some m → (eachFrom f i l s)[m]? = s[m]?.map (g (i + j))) := by
  induction l generalizing i s with
  | nil => exact ⟨h0, fun _ _ => rfl, fun j m h => by simp at h⟩
  | cons n rest ih =>
    have hn : n ∉ rest := (List.nodup_cons.1 hnd).1
    have hrest : rest.Nodup := (List.nodup_cons.1 hnd).2
    obtain ⟨hinv1, hval1⟩ := hstep 0 n s (by simp) h0
    simp only [Nat.add_zero] at hinv1 hval1
    obtain ⟨hI, hout, hin⟩ := ih hrest (i + 1) (f i n s) hinv1 (by
      intro j m t hj ht
      have := hstep (j + 1) m t (by simpa using hj) ht
      have e : i + (j + 1) = i + 1 + j := by omega
      rw [e] at this
      exact this)
    refine ⟨hI, ?_, ?_⟩
    · intro m hm
      have hmn : m ≠ n := fun h => hm (h ▸ List.mem_cons_self _ _)
      have hmr : m ∉ rest := fun h => hm (List.mem_cons_of_mem _ h)
      show (eachFrom f (i + 1) rest (f i n s))[m]? = _
      rw [hout m hmr, hval1 m, if_neg hmn]
    · intro j m hj
      show (eachFrom f (i + 1) rest (f i n s))[m]? = _
      cases j with
      | zero =>
        have hmn : n = m := by simpa using hj
        subst hmn
        rw [hout n hn, hval1 n, if_pos rfl]
        rfl
      | succ j =>
        have hj2 : rest[j]? = some m := by simpa using hj
        have hmr : m ∈ rest := List.getElem?_mem hj2
        have hmn : m ≠ n := fun h => hn (h ▸ hmr)
        rw [hin j m hj2, hval1 m, if_neg hmn]
        have e : i + (j + 1) = i + 1 + j := by omega
        rw [e]

theorem each_local (g : Nat → Elem → Elem) (Inv : Doc → Prop) (f : Nat → Nat → Doc → Doc)
    (l : List Nat) (hnd : l.Nodup) (s : Doc) (h0 : Inv s)
    (hstep : ∀ j n t, l[j]? = some n → Inv t →
      Inv (f j n t) ∧ ∀ m, (f j n t)[m]? = if m = n then t[m]?.map (g j) else t[m]?) :
    Inv (each l f s) ∧ (∀ m, m ∉ l → (each l f s)[m]? = s[m]?) ∧
      (∀ j m, l[j]? = some m → (each l f s)[m]? = s[m]?.map (g j)) := by
  have := eachFrom_local g Inv f l hnd 0 s h0 (by
    intro j n t hj ht
    simpa using hstep j n t hj ht)
  simpa [each] using this

theorem classesAt_congr {d d' : Doc} (h : d'.map Elem.classes = d.map Elem.classes) (k : Nat) :
    classesAt d' k = classesAt d k := by
  simp only [classesAt, getElem?_map_of_map h k]

theorem hasClassAt_congr {d d' : Doc} (h : d'.map Elem.classes = d.map Elem.classes) (k : Nat)
    (c : String) : hasClassAt d' k c = hasClassAt d k c := by
  simp only [hasClassAt, classesAt_congr h k]

theorem originalAt_congr {d d' : Doc} (h : d'.map Elem.original = d.map Elem.original) (k : Nat) :
    originalAt d' k = originalAt d k := by
  have := getElem?_map_of_map h k
  simp only [originalAt]
  cases h1 : d'[k]? <;> cases h2 : d[k]? <;> simp_all

theorem htmlAt_congr {d d' : Doc} (h : d'.map Elem.html = d.map Elem.html) (k : Nat) :
    htmlAt d' k = htmlAt d k :=
  getElem?_map_of_map h k

theorem cssTextAt_congr {d d' : Doc} (h : d'.map Elem.cssText = d.map Elem.cssText) (k : Nat) :
    cssTextAt d' k = cssTextAt d k :=
  getElem?_map_of_map h k

theorem isScoped_eq_of_getElem? {d : Doc} {k : Nat} {e : Elem} (h : d[k]? = some e) :
    isScoped d k = e.scopedAttr := by
  simp [isScoped, h]

/-- The outcome of `emptyBlocks`, element by element. -/
theorem getElem?_emptyBlocks (c : Nat) (d : Doc) :
    (∀ m, m ∉ styleBlocks d → (emptyBlocks c d)[m]? = d[m]?) ∧
    (∀ j m, (styleBlocks d)[j]? = some m → (emptyBlocks c d)[m]? =
      d[m]?.map (fun e =>
        if e.scopedAttr && !hasClassAt d c (dependsOn j) then setHtml "" e else e)) := by
  have key := each_local
    (fun j e => if e.scopedAttr && !hasClassAt d c (dependsOn j) then setHtml "" e else e)
    (fun t : Doc => t.map Elem.skeleton = d.map Elem.skeleton ∧
      t.map Elem.classes = d.map Elem.classes)
    (fun i n acc =>
      if isScoped acc n then
        if !hasClassAt acc c (dependsOn i) then
          match (styleBlocks acc)[i]? with
          | some m => update acc m (setHtml "")
          | none => acc
        else acc
      else acc)
    (styleBlocks d) (nodup_find _ _ _) d ⟨rfl, rfl⟩ (by
      intro j n t hj ⟨hs, hc⟩
      have hsb : (styleBlocks t)[j]? = some n := by rw [styleBlocks_congr hs]; exact hj
      have hcl : hasClassAt t c (dependsOn j) = hasClassAt d c (dependsOn j) :=
        hasClassAt_congr hc c _
      have hlt : n < t.length := by
        rw [length_eq_of_map hs]
        exact lt_length_of_mem_styleBlocks (List.getElem?_mem hj)
      obtain ⟨e, he⟩ : ∃ e, t[n]? = some e := ⟨t[n], List.getElem?_eq_getElem hlt⟩
      have hsc : isScoped t n = e.scopedAttr := isScoped_eq_of_getElem? he
      simp only [hsb, hcl, hsc]
      by_cases h1 : e.scopedAttr = true
      · by_cases h2 : hasClassAt d c (dependsOn j) = true
        · simp only [h1, h2, Bool.not_true, Bool.and_false, if_true]
          refine ⟨⟨hs, hc⟩, ?_⟩
          intro m
          by_cases hm : m = n
          · subst hm; simp [he, h1]
          · simp [hm]
        · simp only [Bool.not_eq_true] at h2
          simp only [h1, h2, Bool.not_false, Bool.and_true, if_true]
          refine ⟨⟨?_, ?_⟩, ?_⟩
          · rw [map_update Elem.skeleton _ _ (setHtml "") (fun _ => rfl)]; exact hs
          · rw [map_update Elem.classes _ _ (setHtml "") (fun _ => rfl)]; exact hc
          · intro m
            rw [getElem?_update]
            by_cases hm : m = n
            · subst hm; simp [he, h1]
            · simp [hm]
      · simp only [Bool.not_eq_true] at h1
        simp only [h1, Bool.false_and, if_false]
        refine ⟨⟨hs, hc⟩, ?_⟩
        intro m
        by_cases hm : m = n
        · subst hm; simp [he, h1]
        · simp [hm])
  exact ⟨key.2.1, key.2.2⟩

/-- A traversal whose every step rewrites its own node by the same function `g`. -/
theorem each_pointwise (g : Elem → Elem) (f : Nat → Nat → Doc → Doc) (l : List Nat)
    (hnd : l.Nodup) (s : Doc)
    (hstep : ∀ j n t m, (f j n t)[m]? = if m = n then t[m]?.map g else t[m]?) :
    (∀ m, m ∉ l → (each l f s)[m]? = s[m]?) ∧ (∀ m, m ∈ l → (each l f s)[m]? = s[m]?.map g) := by
  have key := each_local (fun _ => g) (fun _ => True) f l hnd s trivial
    (fun j n t _ _ => ⟨trivial, hstep j n t⟩)
  refine ⟨key.2.1, ?_⟩
  intro m hm
  obtain ⟨j, hj⟩ := List.mem_iff_getElem?.1 hm
  exact key.2.2 j m hj

/-- The outcome of `fillBlocks`, element by element. -/
theorem getElem?_fillBlocks (d : Doc) :
    (∀ m, m ∉ styleBlocks d → (fillBlocks d)[m]? = d[m]?) ∧
    (∀ m, m ∈ styleBlocks d → (fillBlocks d)[m]? =
      d[m]?.map (fun e =>
        if e.scopedAttr then
          match e.original with
          | some t => setHtml t e
          | none => e
        else e)) := by
  refine each_pointwise _ _ _ (nodup_find _ _ _) d ?_
  intro j n t m
  cases he : t[n]? with
  | none =>
    have h1 : isScoped t n = false := by simp [isScoped, he]
    simp only [h1, Bool.false_eq_true, if_false]
    by_cases hm : m = n
    · subst hm; simp [he]
    · simp [hm]
  | some e =>
    have h1 : isScoped t n = e.scopedAttr := isScoped_eq_of_getElem? he
    have h2 : originalAt t n = e.original := by simp [originalAt, he]
    simp only [h1, h2]
    by_cases hm : m = n
    · subst hm
      by_cases hs : e.scopedAttr = true
      · cases ho : e.original with
        | none => simp [hs, ho, he]
        | some x => simp [hs, ho, he, getElem?_update]
      · simp [hs, he]
    · by_cases hs : e.scopedAttr = true
      · cases ho : e.original with
        | none => simp [hs, hm]
        | some x => simp [hs, hm, getElem?_update]
      · simp [hs, hm]

/-- The outcome of `backupBlocks`, element by element. -/
theorem getElem?_backupBlocks (d : Doc) :
    (∀ m, m ∉ styleBlocks d → (backupBlocks d)[m]? = d[m]?) ∧
    (∀ m, m ∈ styleBlocks d → (backupBlocks d)[m]? =
      d[m]?.map (fun e => if e.scopedAttr then setOriginal e.html e else e)) := by
  refine each_pointwise _ _ _ (nodup_find _ _ _) d ?_
  intro j n t m
  cases he : t[n]? with
  | none =>
    have h1 : isScoped t n = false := by simp [isScoped, he]
    simp only [h1, Bool.false_eq_true, if_false]
    by_cases hm : m = n
    · subst hm; simp [he]
    · simp [hm]
  | some e =>
    have h1 : isScoped t n = e.scopedAttr := isScoped_eq_of_getElem? he
    have h2 : htmlAt t n = some e.html := by simp [htmlAt, he]
    simp only [h1, h2]
    by_cases hm : m = n
    · subst hm
      by_cases hs : e.scopedAttr = true
      · simp [hs, he, getElem?_update]
      · simp [hs, he]
    · by_cases hs : e.scopedAttr = true
      · simp [hs, hm, getElem?_update]
      · simp [hs, hm]

/-- The outcome of the last traversal, element by element. -/
theorem getElem?_clearScoped (d : Doc) :
    (∀ m, m ∉ styleBlocks d → (clearScoped d)[m]? = d[m]?) ∧
    (∀ m, m ∈ styleBlocks d → (clearScoped d)[m]? =
      d[m]?.map (fun e => if e.scopedAttr then setHtml "" e else e)) := by
  refine each_pointwise _ _ _ (nodup_find _ _ _) d ?_
  intro j n t m
  cases he : t[n]? with
  | none =>
    have h1 : isScoped t n = false := by simp [isScoped, he]
    simp only [h1, Bool.false_eq_true, if_false]
    by_cases hm : m = n
    · subst hm; simp [he]
    · simp [hm]
  | some e =>
    have h1 : isScoped t n = e.scopedAttr := isScoped_eq_of_getElem? he
    simp only [h1]
    by_cases hm : m = n
    · subst hm
      by_cases hs : e.scopedAttr = true
      · simp [hs, he, getElem?_update]
      · simp [hs, he]
    · by_cases hs : e.scopedAttr = true
      · simp [hs, hm, getElem?_update]
      · simp [hs, hm]

/-! ## The text of the style blocks under each traversal -/

theorem exists_getElem?_of_lt {d : Doc} {m : Nat} (h : m < d.length) : ∃ e, d[m]? = some e :=
  ⟨d[m], List.getElem?_eq_getElem h⟩

theorem htmlAt_emptyBlocks (c : Nat) (d : Doc) {j m : Nat} (hj : (styleBlocks d)[j]? = some m) :
    htmlAt (emptyBlocks c d) m =
      if isScoped d m && !hasClassAt d c (dependsOn j) then some "" else htmlAt d m := by
  obtain ⟨e, he⟩ := exists_getElem?_of_lt (lt_length_of_mem_styleBlocks (List.getElem?_mem hj))
  rw [htmlAt, (getElem?_emptyBlocks c d).2 j m hj, he, isScoped_eq_of_getElem? he]
  cases h : (e.scopedAttr && !hasClassAt d c (dependsOn j))
  · simp only [Option.map_some', h, Bool.false_eq_true, if_false, htmlAt, he]
  · simp only [Option.map_some', h, if_true, setHtml]

theorem getElem?_emptyBlocks_of_not_scoped (c : Nat) (d : Doc) {m : Nat}
    (h : ¬ (m ∈ styleBlocks d ∧ isScoped d m = true)) : (emptyBlocks c d)[m]? = d[m]? := by
  by_cases hm : m ∈ styleBlocks d
  · obtain ⟨j, hj⟩ := List.mem_iff_getElem?.1 hm
    obtain ⟨e, he⟩ := exists_getElem?_of_lt (lt_length_of_mem_styleBlocks hm)
    have hs : e.scopedAttr = false := by
      have : ¬ isScoped d m = true := fun hh => h ⟨hm, hh⟩
      rw [isScoped_eq_of_getElem? he] at this
      simpa using this
    rw [(getElem?_emptyBlocks c d).2 j m hj, he]
    simp [hs]
  · exact (getElem?_emptyBlocks c d).1 m hm

theorem getElem?_fillBlocks_of_not_scoped (d : Doc) {m : Nat}
    (h : ¬ (m ∈ styleBlocks d ∧ isScoped d m = true)) : (fillBlocks d)[m]? = d[m]? := by
  by_cases hm : m ∈ styleBlocks d
  · obtain ⟨e, he⟩ := exists_getElem?_of_lt (lt_length_of_mem_styleBlocks hm)
    have hs : e.scopedAttr = false := by
      have : ¬ isScoped d m = true := fun hh => h ⟨hm, hh⟩
      rw [isScoped_eq_of_getElem? he] at this
      simpa using this
    rw [(getElem?_fillBlocks d).2 m hm, he]
    simp [hs]
  · exact (getElem?_fillBlocks d).1 m hm

theorem htmlAt_fillBlocks (d : Doc) {m : Nat} {t : String} (hm : m ∈ styleBlocks d)
    (hs : isScoped d m = true) (ho : originalAt d m = some t) :
    htmlAt (fillBlocks d) m = some t := by
  obtain ⟨e, he⟩ := exists_getElem?_of_lt (lt_length_of_mem_styleBlocks hm)
  rw [isScoped_eq_of_getElem? he] at hs
  have ho2 : e.original = some t := by simpa [originalAt, he] using ho
  rw [htmlAt, (getElem?_fillBlocks d).2 m hm, he]
  simp [hs, ho2, setHtml]

theorem originalAt_backupBlocks (d : Doc) {m : Nat} (hm : m ∈ styleBlocks d)
    (hs : isScoped d m = true) : originalAt (backupBlocks d) m = htmlAt d m := by
  obtain ⟨e, he⟩ := exists_getElem?_of_lt (lt_length_of_mem_styleBlocks hm)
  rw [isScoped_eq_of_getElem? he] at hs
  rw [originalAt, (getElem?_backupBlocks d).2 m hm, he]
  simp [hs, setOriginal, htmlAt, he]

theorem htmlAt_clearScoped (d : Doc) {m : Nat} (hm : m ∈ styleBlocks d)
    (hs : isScoped d m = true) : htmlAt (clearScoped d) m = some "" := by
  obtain ⟨e, he⟩ := exists_getElem?_of_lt (lt_length_of_mem_styleBlocks hm)
  rw [isScoped_eq_of_getElem? he] at hs
  rw [htmlAt, (getElem?_clearScoped d).2 m hm, he]
  simp [hs, setHtml]

theorem getElem?_clearScoped_of_not_scoped (d : Doc) {m : Nat}
    (h : ¬ (m ∈ styleBlocks d ∧ isScoped d m = true)) : (clearScoped d)[m]? = d[m]? := by
  by_cases hm : m ∈ styleBlocks d
  · obtain ⟨e, he⟩ := exists_getElem?_of_lt (lt_length_of_mem_styleBlocks hm)
    have hs : e.scopedAttr = false := by
      have : ¬ isScoped d m = true := fun hh => h ⟨hm, hh⟩
      rw [isScoped_eq_of_getElem? he] at this
      simpa using this
    rw [(getElem?_clearScoped d).2 m hm, he]
    simp [hs]
  · exact (getElem?_clearScoped d).1 m hm

theorem skeleton_setHtml (t : String) (e : Elem) : (setHtml t e).skeleton = e.skeleton := rfl
theorem skeleton_setCssText (t : String) (e : Elem) : (setCssText t e).skeleton = e.skeleton := rfl
theorem skeleton_setOriginal (t : String) (e : Elem) : (setOriginal t e).skeleton = e.skeleton := rfl

/-- The skeleton of the document is the same at every point of `$.scoped()`. -/
theorem prepared_skeleton (d : Doc) : (prepared d).map Elem.skeleton = d.map Elem.skeleton :=
  prepared_map _ skeleton_setOriginal addClass_keeps_skeleton d

theorem processUpTo_skeleton (g : Doc → Nat → String) (d : Doc) (s : Nat) :
    (processUpTo g d s).map Elem.skeleton = d.map Elem.skeleton :=
  processUpTo_map _ skeleton_setHtml skeleton_setCssText g d s

/-- The text of a block that is not a scoped style block is the same after one scope. -/
theorem htmlAt_processStep_of_not_scoped (g : Doc → Nat → String) (n : Nat) (d : Doc) {m : Nat}
    (h : ¬ (m ∈ styleBlocks d ∧ isScoped d m = true)) :
    htmlAt (processStep g n d) m = htmlAt d m := by
  unfold processStep
  split
  · unfold processScope
    dsimp only
    have hsk : ∀ x : Doc, x.map Elem.skeleton = d.map Elem.skeleton →
        ¬ (m ∈ styleBlocks x ∧ isScoped x m = true) := by
      intro x hx
      rw [styleBlocks_congr hx, isScoped_congr hx]
      exact h
    have h1 : (emptyBlocks n d).map Elem.skeleton = d.map Elem.skeleton :=
      emptyBlocks_map _ skeleton_setHtml n d
    have h2 := measure_map Elem.skeleton skeleton_setCssText g (parentAt (emptyBlocks n d) n)
      (emptyBlocks n d)
    have h3 := applyStyles_map Elem.skeleton skeleton_setCssText
      (parentAt (measure g (parentAt (emptyBlocks n d) n) (emptyBlocks n d)).1 n)
      (measure g (parentAt (emptyBlocks n d) n) (emptyBlocks n d))
    rw [htmlAt, getElem?_fillBlocks_of_not_scoped _ (hsk _ (h3.trans (h2.trans h1)))]
    have e1 := htmlAt_congr (applyStyles_map Elem.html (fun _ _ => rfl)
      (parentAt (measure g (parentAt (emptyBlocks n d) n) (emptyBlocks n d)).1 n)
      (measure g (parentAt (emptyBlocks n d) n) (emptyBlocks n d))) m
    have e2 := htmlAt_congr (measure_map Elem.html (fun _ _ => rfl) g
      (parentAt (emptyBlocks n d) n) (emptyBlocks n d)) m
    unfold htmlAt at e1 e2
    rw [e1, e2, getElem?_emptyBlocks_of_not_scoped n d h]
    rfl
  · rfl

theorem htmlAt_isSome_of_mem {d : Doc} {m : Nat} (hm : m ∈ styleBlocks d) :
    ∃ t, htmlAt d m = some t := by
  obtain ⟨e, he⟩ := exists_getElem?_of_lt (lt_length_of_mem_styleBlocks hm)
  exact ⟨e.html, by simp [htmlAt, he]⟩

/-- After `emptyBlocks`, the traversals and `fillBlocks`, a scoped block holds what is on
record for it. -/
theorem htmlAt_fill_of_record {x y : Doc} (hsk : y.map Elem.skeleton = x.map Elem.skeleton)
    (hor : y.map Elem.original = x.map Elem.original) {m : Nat} (hm : m ∈ styleBlocks x)
    (hs : isScoped x m = true) {t : String} (ho : originalAt x m = some t) :
    htmlAt (fillBlocks y) m = some t := by
  apply htmlAt_fillBlocks
  · rw [styleBlocks_congr hsk]; exact hm
  · rw [isScoped_congr hsk]; exact hs
  · rw [originalAt_congr hor]; exact ho

theorem processScope_inner_skeleton (g : Doc → Nat → String) (n : Nat) (d : Doc) :
    (applyStyles (parentAt (measure g (parentAt (emptyBlocks n d) n) (emptyBlocks n d)).1 n)
      (measure g (parentAt (emptyBlocks n d) n) (emptyBlocks n d))).1.map Elem.skeleton =
    d.map Elem.skeleton := by
  rw [applyStyles_map _ skeleton_setCssText, measure_map _ skeleton_setCssText,
    emptyBlocks_map _ skeleton_setHtml]

theorem processScope_inner_original (g : Doc → Nat → String) (n : Nat) (d : Doc) :
    (applyStyles (parentAt (measure g (parentAt (emptyBlocks n d) n) (emptyBlocks n d)).1 n)
      (measure g (parentAt (emptyBlocks n d) n) (emptyBlocks n d))).1.map Elem.original =
    d.map Elem.original := by
  rw [applyStyles_map Elem.original (fun _ _ => rfl), measure_map Elem.original (fun _ _ => rfl),
    emptyBlocks_map Elem.original (fun _ _ => rfl)]

/-- One scope of the second traversal leaves every text as it found it, once the texts of the
scoped blocks are on record. -/
theorem htmlAt_processStep (g : Doc → Nat → String) (n : Nat) (d : Doc) (hb : BackedUp d)
    (m : Nat) : htmlAt (processStep g n d) m = htmlAt d m := by
  by_cases h : m ∈ styleBlocks d ∧ isScoped d m = true
  · unfold processStep
    split
    · obtain ⟨t, ht⟩ := htmlAt_isSome_of_mem h.1
      rw [ht]
      unfold processScope
      dsimp only
      exact htmlAt_fill_of_record (processScope_inner_skeleton g n d)
        (processScope_inner_original g n d) h.1 h.2 ((hb m h.1 h.2).trans ht)
    · rfl
  · exact htmlAt_processStep_of_not_scoped g n d h

theorem BackedUp_congr {d d' : Doc} (hsk : d'.map Elem.skeleton = d.map Elem.skeleton)
    (hor : d'.map Elem.original = d.map Elem.original) (hh : ∀ m, htmlAt d' m = htmlAt d m)
    (hb : BackedUp d) : BackedUp d' := by
  intro m hm hs
  rw [styleBlocks_congr hsk] at hm
  rw [isScoped_congr hsk] at hs
  rw [originalAt_congr hor, hh, hb m hm hs]

theorem BackedUp_prepared (d : Doc) : BackedUp (prepared d) := by
  intro m hm hs
  rw [styleBlocks_congr (prepared_skeleton d)] at hm
  rw [isScoped_congr (prepared_skeleton d)] at hs
  have h1 : originalAt (prepared d) m = originalAt (backupBlocks d) m :=
    originalAt_congr (addDependencies_map _ addClass_keeps_original _) m
  have h2 : htmlAt (prepared d) m = htmlAt d m :=
    htmlAt_congr (prepared_map Elem.html (fun _ _ => rfl) addClass_keeps_html d) m
  rw [h1, h2, originalAt_backupBlocks d hm hs]

/-- At every position of the second traversal all texts are those of the start. -/
theorem processUpTo_spec (g : Doc → Nat → String) (d : Doc) (hb : BackedUp d) (s : Nat) :
    (processUpTo g d s).map Elem.original = d.map Elem.original ∧
      ∀ m, htmlAt (processUpTo g d s) m = htmlAt d m := by
  refine ⟨processUpTo_map Elem.original (fun _ _ => rfl) (fun _ _ => rfl) g d s, ?_⟩
  have key := each_invariant (fun _ n acc => processStep g n acc)
    (fun t : Doc => t.map Elem.skeleton = d.map Elem.skeleton ∧
      t.map Elem.original = d.map Elem.original ∧ ∀ m, htmlAt t m = htmlAt d m)
    ((styleBlocks d).take s) d ⟨rfl, rfl, fun _ => rfl⟩ (by
      intro j n t _ ⟨h1, h2, h3⟩
      have hbt : BackedUp t := BackedUp_congr h1 h2 h3 hb
      refine ⟨?_, ?_, ?_⟩
      · rw [processStep_map _ skeleton_setHtml skeleton_setCssText]; exact h1
      · rw [processStep_map Elem.original (fun _ _ => rfl) (fun _ _ => rfl)]; exact h2
      · intro m
        rw [htmlAt_processStep g n t hbt m, h3])
  exact key.2.2

theorem processUpTo_length (g : Doc → Nat → String) (d : Doc) :
    processUpTo g d (styleBlocks d).length = processScopes g d := by
  unfold processUpTo processScopes
  rw [List.take_length]

theorem BackedUp_processUpTo (g : Doc → Nat → String) (d : Doc) (hb : BackedUp d) (s : Nat) :
    BackedUp (processUpTo g d s) :=
  BackedUp_congr (processUpTo_skeleton g d s) (processUpTo_spec g d hb s).1
    (processUpTo_spec g d hb s).2 hb

/-! ## The marker class names

`'depends_on_' + index` names the index faithfully: different indices give different
class names, and no `this_is_` class is a `depends_on_` class. -/

theorem digitValue_digitChar (k : Nat) (h : k < 10) : digitValue (Nat.digitChar k) = k := by
  interval_cases k <;> rfl

theorem decode_toDigitsCore (fuel n : Nat) (ds : List Char) (h : n < fuel) :
    (Nat.toDigitsCore 10 fuel n ds).foldl (fun a c => a * 10 + digitValue c) 0 =
      ds.foldl (fun a c => a * 10 + digitValue c) n := by
  induction fuel generalizing n ds with
  | zero => omega
  | succ fuel ih =>
    unfold Nat.toDigitsCore
    dsimp only
    have hd : digitValue (Nat.digitChar (n % 10)) = n % 10 :=
      digitValue_digitChar _ (Nat.mod_lt _ (by decide))
    split
    · rename_i h0
      have : n % 10 = n := by omega
      show List.foldl _ (0 * 10 + digitValue (Nat.digitChar (n % 10))) ds = _
      rw [hd, this, Nat.zero_mul, Nat.zero_add]
    · rename_i h0
      have hlt : n / 10 < fuel := by omega
      rw [ih (n / 10) _ hlt]
      simp only [List.foldl, hd]
      congr 1
      omega

theorem toDigits_injective {i j : Nat} (h : Nat.toDigits 10 i = Nat.toDigits 10 j) : i = j := by
  have hi := decode_toDigitsCore (i + 1) i [] (Nat.lt_succ_self i)
  have hj := decode_toDigitsCore (j + 1) j [] (Nat.lt_succ_self j)
  unfold Nat.toDigits at h
  rw [h, hj] at hi
  simpa using hi.symm

theorem toString_injective {i j : Nat} (h : toString i = toString j) : i = j := by
  apply toDigits_injective
  have : (Nat.toDigits 10 i).asString = (Nat.toDigits 10 j).asString := h
  exact congrArg String.data this

theorem dependsOn_injective {i j : Nat} (h : dependsOn i = dependsOn j) : i = j := by
  apply toString_injective
  have := congrArg String.data h
  simp only [dependsOn, String.data_append] at this
  exact String.ext (List.append_cancel_left this)

theorem thisIs_ne_dependsOn (i j : Nat) : thisIs i ≠ dependsOn j := by
  intro h
  have := congrArg String.data h
  simp only [thisIs, dependsOn, String.data_append] at this
  have h2 := congrArg List.head? this
  simp at h2

/-! ## The dependency pass -/

theorem classesAt_of_getElem? {d : Doc} {k : Nat} {e : Elem} (h : d[k]? = some e) :
    classesAt d k = e.classes := by
  simp [classesAt, h]

theorem classesAt_of_not_lt {d : Doc} {k : Nat} (h : ¬ k < d.length) : classesAt d k = [] := by
  have : d[k]? = none := List.getElem?_eq_none (Nat.le_of_not_lt h)
  simp [classesAt, this]

theorem mem_classes_addClass (c x : String) (e : Elem) :
    x ∈ (addClass c e).classes ↔ x ∈ e.classes ∨ x = c := by
  unfold addClass
  split
  · rename_i h
    constructor
    · exact fun hx => Or.inl hx
    · rintro (hx | hx)
      · exact hx
      · rw [hx]; exact h
  · simp

theorem mem_classesAt_update_addClass (a : Doc) (n k : Nat) (c x : String) :
    x ∈ classesAt (update a n (addClass c)) k ↔
      x ∈ classesAt a k ∨ (x = c ∧ k = n ∧ k < a.length) := by
  by_cases hk : k = n
  · subst hk
    by_cases hlt : k < a.length
    · obtain ⟨e, he⟩ := exists_getElem?_of_lt hlt
      have h1 : (update a k (addClass c))[k]? = some (addClass c e) := by
        rw [getElem?_update_self, he]; rfl
      rw [classesAt_of_getElem? h1, classesAt_of_getElem? he, mem_classes_addClass]
      simp [hlt]
    · have h1 : ¬ k < (update a k (addClass c)).length := by rw [length_update]; exact hlt
      rw [classesAt_of_not_lt h1, classesAt_of_not_lt hlt]
      simp [hlt]
  · have h1 : (update a n (addClass c))[k]? = a[k]? := getElem?_update_of_ne a _ hk
    simp only [classesAt, h1]
    simp [hk]

/-- The inner traversal of the dependency pass marks exactly the nodes of its node list. -/
theorem mem_classesAt_eachAdd (c : String) (l : List Nat) (i : Nat) (a : Doc) (k : Nat)
    (x : String) :
    x ∈ classesAt (eachFrom (fun _ m t => update t m (addClass c)) i l a) k ↔
      x ∈ classesAt a k ∨ (x = c ∧ k ∈ l ∧ k < a.length) := by
  induction l generalizing i a with
  | nil => simp [eachFrom]
  | cons n rest ih =>
    show x ∈ classesAt (eachFrom _ (i + 1) rest (update a n (addClass c))) k ↔ _
    rw [ih, mem_classesAt_update_addClass, length_update]
    simp only [List.mem_cons]
    tauto

/-- The classes after one call of the callback of the dependency pass. -/
theorem mem_classesAt_addStep (t : Doc) (index n k : Nat) (x : String) :
    x ∈ classesAt (each (find (update t n (addClass (thisIs index)))
        (parentAt (update t n (addClass (thisIs index))) n)
        (isStyleAt (update t n (addClass (thisIs index)))))
        (fun _ m a => update a m (addClass (dependsOn index)))
        (update t n (addClass (thisIs index)))) k ↔
      x ∈ classesAt t k ∨ (x = thisIs index ∧ k = n ∧ k < t.length) ∨
        (x = dependsOn index ∧ k ∈ find t (parentAt t n) (isStyleAt t)) := by
  have hsk : (update t n (addClass (thisIs index))).map Elem.skeleton = t.map Elem.skeleton :=
    map_update _ _ _ _ (addClass_keeps_skeleton _)
  rw [find_congr hsk _ (isStyleAt_congr hsk), parentAt_congr hsk]
  unfold each
  rw [mem_classesAt_eachAdd, mem_classesAt_update_addClass, length_update]
  have : k ∈ find t (parentAt t n) (isStyleAt t) → k < t.length := fun h => (mem_find.1 h).1
  tauto

/-- The classes after the dependency pass. -/
theorem mem_classesAt_addDependencies (d : Doc) (k : Nat) (x : String) :
    x ∈ classesAt (addDependencies d) k ↔
      x ∈ classesAt d k ∨ ∃ i n, (styleBlocks d)[i]? = some n ∧ isScoped d n = true ∧
        ((x = thisIs i ∧ k = n) ∨
          (x = dependsOn i ∧ k ∈ find d (parentAt d n) (isStyleAt d))) := by
  have key := eachFrom_invariant
    (fun index n acc =>
      if isScoped acc n then
        let acc1 := update acc n (addClass (thisIs index))
        each (find acc1 (parentAt acc1 n) (isStyleAt acc1))
          (fun _ m a => update a m (addClass (dependsOn index))) acc1
      else acc)
    (fun j (t : Doc) => t.map Elem.skeleton = d.map Elem.skeleton ∧
      ∀ k x, x ∈ classesAt t k ↔
        x ∈ classesAt d k ∨ ∃ i n, i < j ∧ (styleBlocks d)[i]? = some n ∧ isScoped d n = true ∧
          ((x = thisIs i ∧ k = n) ∨
            (x = dependsOn i ∧ k ∈ find d (parentAt d n) (isStyleAt d))))
    (styleBlocks d) 0 d ⟨rfl, by simp⟩ (by
      intro j n t hj ⟨hsk, hcl⟩
      simp only [Nat.zero_add]
      have hlt : n < t.length := by
        rw [length_eq_of_map hsk]
        exact lt_length_of_mem_styleBlocks (List.getElem?_mem hj)
      by_cases hs : isScoped t n = true
      · rw [if_pos hs]
        refine ⟨?_, ?_⟩
        · have h1 : (update t n (addClass (thisIs j))).map Elem.skeleton =
              t.map Elem.skeleton := map_update _ _ _ _ (addClass_keeps_skeleton _)
          refine each_invariant _ (fun a : Doc => a.map Elem.skeleton = d.map Elem.skeleton)
            _ _ (h1.trans hsk) ?_
          intro _ m a _ ha
          show List.map Elem.skeleton (update a m _) = _
          rw [map_update _ _ _ _ (addClass_keeps_skeleton _)]; exact ha
        · intro k x
          rw [mem_classesAt_addStep, hcl, find_congr hsk _ (isStyleAt_congr hsk),
            parentAt_congr hsk]
          rw [isScoped_congr hsk] at hs
          constructor
          · rintro ((h | ⟨i, m, hi, hm, hsm, h⟩) | ⟨hx, hk, _⟩ | ⟨hx, hk⟩)
            · exact Or.inl h
            · exact Or.inr ⟨i, m, by omega, hm, hsm, h⟩
            · exact Or.inr ⟨j, n, by omega, hj, hs, Or.inl ⟨hx, hk⟩⟩
            · exact Or.inr ⟨j, n, by omega, hj, hs, Or.inr ⟨hx, hk⟩⟩
          · rintro (h | ⟨i, m, hi, hm, hsm, h⟩)
            · exact Or.inl (Or.inl h)
            · by_cases hij : i = j
              · subst hij
                have hmn : m = n := by
                  rw [hj] at hm
                  exact (Option.some.inj hm).symm
                subst hmn
                rcases h with ⟨hx, hk⟩ | ⟨hx, hk⟩
                · exact Or.inr (Or.inl ⟨hx, hk, hk ▸ hlt⟩)
                · exact Or.inr (Or.inr ⟨hx, hk⟩)
              · exact Or.inl (Or.inr ⟨i, m, by omega, hm, hsm, h⟩)
      · rw [if_neg hs]
        refine ⟨hsk, ?_⟩
        intro k x
        rw [hcl]
        rw [isScoped_congr hsk] at hs
        constructor
        · rintro (h | ⟨i, m, hi, hm, hsm, h⟩)
          · exact Or.inl h
          · exact Or.inr ⟨i, m, by omega, hm, hsm, h⟩
        · rintro (h | ⟨i, m, hi, hm, hsm, h⟩)
          · exact Or.inl h
          · by_cases hij : i = j
            · subst hij
              rw [hj] at hm
              have hmn : n = m := Option.some.inj hm
              subst hmn
              exact absurd hsm hs
            · exact Or.inr ⟨i, m, by omega, hm, hsm, h⟩)
  have h2 := key.2 k x
  refine Iff.trans h2 ?_
  constructor
  · rintro (h | ⟨i, n, _, h⟩)
    · exact Or.inl h
    · exact Or.inr ⟨i, n, h⟩
  · rintro (h | ⟨i, n, hi, h⟩)
    · exact Or.inl h
    · refine Or.inr ⟨i, n, ?_, hi, h⟩
      exact (List.getElem?_eq_some_iff.1 hi).1

/-! ## The measuring and the applying traversal -/

theorem eachFrom_eq_foldl {σ : Type} (step : Nat → σ → σ) (i : Nat) (l : List Nat) (s : σ) :
    eachFrom (fun _ n t => step n t) i l s = l.foldl (fun t n => step n t) s := by
  induction l generalizing i s with
  | nil => rfl
  | cons n rest ih => exact ih (i + 1) (step n s)

theorem each_eq_foldl {σ : Type} (step : Nat → σ → σ) (l : List Nat) (s : σ) :
    each l (fun _ n t => step n t) s = l.foldl (fun t n => step n t) s :=
  eachFrom_eq_foldl step 0 l s

theorem nodeNameAt_update_setCssText {d t : Doc}
    (hsk : t.map Elem.skeleton = d.map Elem.skeleton) (n : Nat) (x : String) (k : Nat) :
    nodeNameAt (update t n (setCssText x)) k = nodeNameAt d k :=
  nodeNameAt_congr ((map_update Elem.skeleton t n (setCssText x) (fun _ => rfl)).trans hsk) k

theorem measureStep_of_style (g : Doc → Nat → String) {d t : Doc}
    (hsk : t.map Elem.skeleton = d.map Elem.skeleton) {n : Nat} (hst : isStyleAt d n = true)
    (h : List String) : measureStep g n (t, h) = (update t n (setCssText ""), h) := by
  have hn : nodeNameAt d n = some "STYLE" := by simpa [isStyleAt] using hst
  unfold measureStep
  dsimp only
  rw [nodeNameAt_update_setCssText hsk, if_neg (by simp [hn])]

theorem measureStep_of_not_style (g : Doc → Nat → String) {d t : Doc}
    (hsk : t.map Elem.skeleton = d.map Elem.skeleton) {n : Nat} (hst : isStyleAt d n = false)
    (h : List String) :
    measureStep g n (t, h) =
      (update t n (setCssText ""), h ++ [g (update t n (setCssText "")) n]) := by
  have hn : nodeNameAt d n ≠ some "STYLE" := by simpa [isStyleAt] using hst
  unfold measureStep
  dsimp only
  rw [nodeNameAt_update_setCssText hsk, if_pos hn]

theorem applyStep_of_style {d t : Doc}
    (hsk : t.map Elem.skeleton = d.map Elem.skeleton) {n : Nat} (hst : isStyleAt d n = true)
    (h : List String) : applyStep n (t, h) = (t, h) := by
  have hn : nodeNameAt d n = some "STYLE" := by simpa [isStyleAt] using hst
  unfold applyStep
  dsimp only
  rw [nodeNameAt_congr hsk, if_neg (by simp [hn])]

theorem applyStep_of_not_style {d t : Doc}
    (hsk : t.map Elem.skeleton = d.map Elem.skeleton) {n : Nat} (hst : isStyleAt d n = false)
    (x : String) (h : List String) :
    applyStep n (t, x :: h) = (update t n (setCssText x), h) := by
  have hn : nodeNameAt d n ≠ some "STYLE" := by simpa [isStyleAt] using hst
  unfold applyStep
  dsimp only
  rw [nodeNameAt_congr hsk, if_pos hn]

theorem getElem?_append_singleton_length (h : List String) (x : String) (more : List String) :
    (h ++ [x] ++ more)[h.length + 0]? = some x := by
  rw [List.append_assoc, Nat.add_zero, List.getElem?_append_right (le_refl _)]
  simp

/-- The holding area only grows during the measuring traversal. -/
theorem measure_fold_prefix (g : Doc → Nat → String) (l : List Nat) (s : Doc × List String) :
    ∃ more, (l.foldl (fun t n => measureStep g n t) s).2 = s.2 ++ more := by
  induction l generalizing s with
  | nil => exact ⟨[], by simp⟩
  | cons n rest ih =>
    obtain ⟨more, hm⟩ := ih (measureStep g n s)
    have h1 : ∃ m1, (measureStep g n s).2 = s.2 ++ m1 := by
      unfold measureStep
      dsimp only
      split
      · exact ⟨_, rfl⟩
      · exact ⟨[], by simp⟩
    obtain ⟨m1, h1⟩ := h1
    refine ⟨m1 ++ more, ?_⟩
    rw [List.foldl_cons, hm, h1, List.append_assoc]

/-- The measuring traversal over a node list `l`, started with the holding area `h`: one
snapshot is pushed per non-style node, and it is the one computed when the node is reached. -/
theorem measure_fold (g : Doc → Nat → String) (d : Doc) (l : List Nat) (t : Doc)
    (h : List String) (hsk : t.map Elem.skeleton = d.map Elem.skeleton) :
    (l.foldl (fun s n => measureStep g n s) (t, h)).2.length =
        h.length + (l.filter (fun n => !isStyleAt d n)).length ∧
    (∀ m, (l.foldl (fun s n => measureStep g n s) (t, h)).1[m]? =
        if m ∈ l then t[m]?.map (setCssText "") else t[m]?) ∧
    (∀ k e, (l.filter (fun n => !isStyleAt d n))[k]? = some e → ∃ j, l[j]? = some e ∧
      ((l.take j).foldl (fun s n => measureStep g n s) (t, h)).2.length = h.length + k ∧
      (l.foldl (fun s n => measureStep g n s) (t, h)).2[h.length + k]? =
        some (g (update ((l.take j).foldl (fun s n => measureStep g n s) (t, h)).1 e
          (setCssText "")) e)) := by
  induction l generalizing t h with
  | nil => exact ⟨by simp, by simp, by simp⟩
  | cons n rest ih =>
    have hsk1 : (update t n (setCssText "")).map Elem.skeleton = d.map Elem.skeleton :=
      (map_update Elem.skeleton t n (setCssText "") (fun _ => rfl)).trans hsk
    have hcl : ∀ m, ((update t n (setCssText ""))[m]?).map (setCssText "") =
        if m = n then t[m]?.map (setCssText "") else t[m]?.map (setCssText "") := by
      intro m
      rw [getElem?_update]
      by_cases hm : m = n
      · subst hm
        cases t[m]? <;> simp [setCssText]
      · simp [hm]
    cases hst : isStyleAt d n with
    | true =>
      have hstep := measureStep_of_style g hsk hst h
      obtain ⟨ih1, ih2, ih3⟩ := ih (update t n (setCssText "")) h hsk1
      simp only [List.foldl_cons, hstep, List.filter_cons, hst, Bool.not_true,
        Bool.false_eq_true, if_false]
      refine ⟨ih1, ?_, ?_⟩
      · intro m
        rw [ih2 m, hcl m, getElem?_update]
        by_cases hm : m = n
        · subst hm; simp
        · simp [hm]
      · intro k e hk
        obtain ⟨j, hj1, hj2, hj3⟩ := ih3 k e hk
        refine ⟨j + 1, by simpa using hj1, ?_, ?_⟩
        · simpa [List.take_succ_cons, List.foldl_cons, hstep] using hj2
        · simpa [List.take_succ_cons, List.foldl_cons, hstep] using hj3
    | false =>
      have hstep := measureStep_of_not_style g hsk hst h
      obtain ⟨ih1, ih2, ih3⟩ := ih (update t n (setCssText ""))
        (h ++ [g (update t n (setCssText "")) n]) hsk1
      simp only [List.foldl_cons, hstep, List.filter_cons, hst, Bool.not_false, if_true]
      refine ⟨?_, ?_, ?_⟩
      · rw [ih1]; simp; omega
      · intro m
        rw [ih2 m, hcl m, getElem?_update]
        by_cases hm : m = n
        · subst hm; simp
        · simp [hm]
      · intro k e hk
        cases k with
        | zero =>
          have hen : n = e := by simpa using hk
          subst hen
          refine ⟨0, by simp, by simp, ?_⟩
          obtain ⟨more, hmore⟩ := measure_fold_prefix g rest
            (update t n (setCssText ""), h ++ [g (update t n (setCssText "")) n])
          rw [hmore]
          exact getElem?_append_singleton_length h _ more
        | succ k =>
          have hk2 : (rest.filter (fun n => !isStyleAt d n))[k]? = some e := by simpa using hk
          obtain ⟨j, hj1, hj2, hj3⟩ := ih3 k e hk2
          have e1 : (h ++ [g (update t n (setCssText "")) n]).length + k = h.length + (k + 1) := by
            simp; omega
          rw [e1] at hj2 hj3
          refine ⟨j + 1, by simpa using hj1, ?_, ?_⟩
          · simpa [List.take_succ_cons, List.foldl_cons, hstep] using hj2
          · simpa [List.take_succ_cons, List.foldl_cons, hstep] using hj3

/-- The applying traversal over a duplicate-free node list `l` with a holding area `h` that has
a snapshot for every non-style node: snapshot `k` lands on the `k`-th non-style node. -/
theorem apply_fold (d : Doc) (l : List Nat) (hnd : l.Nodup) (hl : ∀ n, n ∈ l → n < d.length)
    (t : Doc) (h : List String) (hsk : t.map Elem.skeleton = d.map Elem.skeleton)
    (hlen : (l.filter (fun n => !isStyleAt d n)).length ≤ h.length) :
    (l.foldl (fun s n => applyStep n s) (t, h)).2 =
        h.drop (l.filter (fun n => !isStyleAt d n)).length ∧
    (∀ m, m ∉ l.filter (fun n => !isStyleAt d n) →
        (l.foldl (fun s n => applyStep n s) (t, h)).1[m]? = t[m]?) ∧
    (∀ k e : Nat, (l.filter (fun n => !isStyleAt d n))[k]? = some e →
        cssTextAt (l.foldl (fun s n => applyStep n s) (t, h)).1 e = h[k]?) := by
  induction l generalizing t h with
  | nil => exact ⟨by simp, by simp, by simp⟩
  | cons n rest ih =>
    have hn : n ∉ rest := (List.nodup_cons.1 hnd).1
    have hrest : rest.Nodup := (List.nodup_cons.1 hnd).2
    have hl2 : ∀ m, m ∈ rest → m < d.length := fun m hm => hl m (List.mem_cons_of_mem _ hm)
    cases hst : isStyleAt d n with
    | true =>
      have hstep := applyStep_of_style hsk hst h
      have hlen2 : (rest.filter (fun n => !isStyleAt d n)).length ≤ h.length := by
        simpa [List.filter_cons, hst] using hlen
      obtain ⟨ih1, ih2, ih3⟩ := ih hrest hl2 t h hsk hlen2
      simp only [List.foldl_cons, hstep, List.filter_cons, hst, Bool.not_true,
        Bool.false_eq_true, if_false]
      exact ⟨ih1, ih2, ih3⟩
    | false =>
      cases h with
      | nil => simp [List.filter_cons, hst] at hlen
      | cons x h =>
        have hstep := applyStep_of_not_style hsk hst x h
        have hsk1 : (update t n (setCssText x)).map Elem.skeleton = d.map Elem.skeleton :=
          (map_update Elem.skeleton t n (setCssText x) (fun _ => rfl)).trans hsk
        have hlen2 : (rest.filter (fun n => !isStyleAt d n)).length ≤ h.length := by
          simpa [List.filter_cons, hst] using hlen
        obtain ⟨ih1, ih2, ih3⟩ := ih hrest hl2 (update t n (setCssText x)) h hsk1 hlen2
        simp only [List.foldl_cons, hstep, List.filter_cons, hst, Bool.not_false, if_true]
        refine ⟨?_, ?_, ?_⟩
        · rw [ih1]; simp
        · intro m hm
          have hmn : m ≠ n := fun hh => hm (hh ▸ List.mem_cons_self _ _)
          have hmr : m ∉ rest.filter (fun n => !isStyleAt d n) :=
            fun hh => hm (List.mem_cons_of_mem _ hh)
          rw [ih2 m hmr, getElem?_update_of_ne _ _ hmn]
        · intro k e hk
          cases k with
          | zero =>
            have hen : n = e := by simpa using hk
            subst hen
            have hnf : n ∉ rest.filter (fun n => !isStyleAt d n) :=
              fun hh => hn (List.mem_of_mem_filter hh)
            have hlt : n < t.length := by
              rw [length_eq_of_map hsk]; exact hl n (List.mem_cons_self _ _)
            obtain ⟨e0, he0⟩ := exists_getElem?_of_lt hlt
            rw [cssTextAt, ih2 n hnf, getElem?_update_self, he0]
            simp [setCssText]
          | succ k =>
            have hk2 : (rest.filter (fun n => !isStyleAt d n))[k]? = some e := by
              simpa using hk
            rw [ih3 k e hk2]
            simp

/-- The measuring traversal reaches position `j + 1` by one call of its callback. -/
theorem measureUpTo_eq_foldl (g : Doc → Nat → String) (root : Option Nat) (d : Doc) (j : Nat) :
    measureUpTo g root d j =
      ((find d root (fun _ => true)).take j).foldl (fun s n => measureStep g n s) (d, []) :=
  each_eq_foldl _ _ _

theorem measure_eq_foldl (g : Doc → Nat → String) (root : Option Nat) (d : Doc) :
    measure g root d =
      (find d root (fun _ => true)).foldl (fun s n => measureStep g n s) (d, []) :=
  each_eq_foldl _ _ _

theorem applyStyles_eq_foldl (root : Option Nat) (s : Doc × List String) :
    applyStyles root s = (find s.1 root (fun _ => true)).foldl (fun s n => applyStep n s) s :=
  each_eq_foldl _ _ _

/-- Measuring and applying under the parent of block `b`, from the document `d`. -/
theorem measure_apply_spec (g : Doc → Nat → String) (d : Doc) (b : Nat) :
    (measure g (parentAt d b) d).2.length =
      ((find d (parentAt d b) (fun _ => true)).filter (fun n => !isStyleAt d n)).length ∧
    (applyStyles (parentAt (measure g (parentAt d b) d).1 b) (measure g (parentAt d b) d)).2
      = [] ∧
    (∀ k e, ((find d (parentAt d b) (fun _ => true)).filter (fun n => !isStyleAt d n))[k]?
        = some e →
      ∃ j, (find d (parentAt d b) (fun _ => true))[j]? = some e ∧
        (measureUpTo g (parentAt d b) d j).2.length = k ∧
        (measure g (parentAt d b) d).2[k]? =
          some (g (update (measureUpTo g (parentAt d b) d j).1 e (setCssText "")) e) ∧
        cssTextAt (applyStyles (parentAt (measure g (parentAt d b) d).1 b)
          (measure g (parentAt d b) d)).1 e = (measure g (parentAt d b) d).2[k]?) ∧
    (∀ m, (applyStyles (parentAt (measure g (parentAt d b) d).1 b)
          (measure g (parentAt d b) d)).1[m]? =
        if m ∈ (find d (parentAt d b) (fun _ => true)).filter (fun n => !isStyleAt d n)
        then (applyStyles (parentAt (measure g (parentAt d b) d).1 b)
          (measure g (parentAt d b) d)).1[m]?
        else if m ∈ find d (parentAt d b) (fun _ => true) then d[m]?.map (setCssText "")
        else d[m]?) := by
  have hsk : (measure g (parentAt d b) d).1.map Elem.skeleton = d.map Elem.skeleton :=
    measure_map _ skeleton_setCssText g _ d
  have hfind : find (measure g (parentAt d b) d).1 (parentAt (measure g (parentAt d b) d).1 b)
      (fun _ => true) = find d (parentAt d b) (fun _ => true) := by
    rw [parentAt_congr hsk]
    exact find_congr hsk _ (fun _ => rfl)
  obtain ⟨m1, m2, m3⟩ := measure_fold g d (find d (parentAt d b) (fun _ => true)) d [] rfl
  simp only [List.length_nil, Nat.zero_add] at m1 m3
  rw [← measure_eq_foldl] at m1 m2 m3
  have hlen : ((find d (parentAt d b) (fun _ => true)).filter (fun n => !isStyleAt d n)).length
      ≤ (measure g (parentAt d b) d).2.length := by rw [m1]
  obtain ⟨a1, a2, a3⟩ := apply_fold d (find d (parentAt d b) (fun _ => true))
    (nodup_find _ _ _) (fun n hn => (mem_find.1 hn).1) (measure g (parentAt d b) d).1
    (measure g (parentAt d b) d).2 hsk hlen
  have happ : applyStyles (parentAt (measure g (parentAt d b) d).1 b)
      (measure g (parentAt d b) d) =
      (find d (parentAt d b) (fun _ => true)).foldl (fun s n => applyStep n s)
        ((measure g (parentAt d b) d).1, (measure g (parentAt d b) d).2) := by
    rw [applyStyles_eq_foldl, hfind]
  rw [happ]
  refine ⟨m1, ?_, ?_, ?_⟩
  · rw [a1, ← m1]; simp
  · intro k e hk
    obtain ⟨j, hj1, hj2, hj3⟩ := m3 k e hk
    rw [← measureUpTo_eq_foldl] at hj2 hj3
    exact ⟨j, hj1, hj2, hj3, a3 k e hk⟩
  · intro m
    by_cases hm : m ∈ (find d (parentAt d b) (fun _ => true)).filter (fun n => !isStyleAt d n)
    · rw [if_pos hm]
    · rw [if_neg hm, a2 m hm, m2 m]

/-! ## Markers and the tree -/

theorem classesAt_prepared_backup (d : Doc) :
    (backupBlocks d).map Elem.classes = d.map Elem.classes :=
  backupBlocks_map Elem.classes (fun _ _ => rfl) d

theorem backupBlocks_skeleton (d : Doc) :
    (backupBlocks d).map Elem.skeleton = d.map Elem.skeleton :=
  backupBlocks_map Elem.skeleton skeleton_setOriginal d

/-- Without markers in the source document, the `depends_on_` classes after the dependency
pass are exactly those the pass has written. -/
theorem hasClassAt_prepared_dependsOn (d : Doc) (hno : NoMarkers d) (k i : Nat) :
    hasClassAt (prepared d) k (dependsOn i) = true ↔
      ∃ n, (styleBlocks d)[i]? = some n ∧ isScoped d n = true ∧
        k ∈ find d (parentAt d n) (isStyleAt d) := by
  have hsk := backupBlocks_skeleton d
  unfold hasClassAt prepared
  rw [decide_eq_true_iff, mem_classesAt_addDependencies, styleBlocks_congr hsk,
    classesAt_congr (classesAt_prepared_backup d)]
  constructor
  · rintro (h | ⟨j, n, hj, hs, h⟩)
    · exact absurd h (hno k i)
    · rw [isScoped_congr hsk] at hs
      rw [find_congr hsk _ (isStyleAt_congr hsk), parentAt_congr hsk] at h
      rcases h with ⟨hx, _⟩ | ⟨hx, hk⟩
      · exact absurd hx.symm (thisIs_ne_dependsOn j i)
      · have hij : i = j := dependsOn_injective hx
        subst hij
        exact ⟨n, hj, hs, hk⟩
  · rintro ⟨n, hj, hs, hk⟩
    refine Or.inr ⟨i, n, hj, ?_, Or.inr ⟨rfl, ?_⟩⟩
    · rw [isScoped_congr hsk]; exact hs
    · rw [find_congr hsk _ (isStyleAt_congr hsk), parentAt_congr hsk]; exact hk

/-- A node lies in the subtree of its own parent. -/
theorem inSubtree_parent_self (d : Doc) {n : Nat} (hn : n < d.length) :
    inSubtree d (parentAt d n) n = true := by
  cases hp : parentAt d n with
  | none => rfl
  | some p =>
    unfold inSubtree
    dsimp only
    rw [decide_eq_true_iff]
    obtain ⟨len, hlen⟩ : ∃ len, d.length = len + 1 := ⟨d.length - 1, by omega⟩
    rw [hlen]
    unfold ancestors
    rw [hp]
    exact List.mem_cons_self _ _

/-- In a tree the ancestors of a node come before it. -/
theorem lt_of_mem_ancestors {d : Doc} (ht : TreeShaped d) {fuel k a : Nat}
    (h : a ∈ ancestors d fuel k) : a < k := by
  induction fuel generalizing k with
  | zero => simp [ancestors] at h
  | succ fuel ih =>
    unfold ancestors at h
    cases hp : parentAt d k with
    | none => simp [hp] at h
    | some p =>
      rw [hp] at h
      have hpk : p < k := ht k p hp
      rcases List.mem_cons.1 h with h1 | h1
      · rw [h1]; exact hpk
      · exact Nat.lt_trans (ih h1) hpk

/-- In a tree the bounded walk to the root is complete as soon as the bound reaches the index
of the node: more fuel finds no further ancestor. -/
theorem ancestors_fuel {d : Doc} (ht : TreeShaped d) (f1 f2 k : Nat) (h1 : k ≤ f1)
    (h2 : k ≤ f2) : ancestors d f1 k = ancestors d f2 k := by
  induction f1 generalizing f2 k with
  | zero =>
    have hk : k = 0 := by omega
    subst hk
    cases f2 with
    | zero => rfl
    | succ f2 =>
      unfold ancestors
      cases hp : parentAt d 0 with
      | none => rfl
      | some p => exact absurd (ht 0 p hp) (Nat.not_lt_zero _)
  | succ f1 ih =>
    cases f2 with
    | zero =>
      have hk : k = 0 := by omega
      subst hk
      unfold ancestors
      cases hp : parentAt d 0 with
      | none => rfl
      | some p => exact absurd (ht 0 p hp) (Nat.not_lt_zero _)
    | succ f2 =>
      unfold ancestors
      cases hp : parentAt d k with
      | none => rfl
      | some p =>
        have hpk : p < k := ht k p hp
        dsimp only
        rw [ih f2 p (by omega) (by omega)]

theorem parentAt_lt_length {d : Doc} {k p : Nat} (h : parentAt d k = some p) : k < d.length := by
  by_contra hk
  have : d[k]? = none := List.getElem?_eq_none (Nat.le_of_not_lt hk)
  simp [parentAt, this] at h

/-- In a tree, a child of a node of the subtree is in the subtree. -/
theorem inSubtree_child {d : Doc} (ht : TreeShaped d) (root : Option Nat) {c p : Nat}
    (hp : parentAt d c = some p) (h : inSubtree d root p = true) : inSubtree d root c = true := by
  cases root with
  | none => rfl
  | some r =>
    unfold inSubtree at h ⊢
    dsimp only at h ⊢
    rw [decide_eq_true_iff] at h ⊢
    have hc : c < d.length := parentAt_lt_length hp
    obtain ⟨len, hlen⟩ : ∃ len, d.length = len + 1 := ⟨d.length - 1, by omega⟩
    have hpc : p < c := ht c p hp
    rw [hlen] at h ⊢
    unfold ancestors
    rw [hp]
    dsimp only
    rw [ancestors_fuel ht len (len + 1) p (by omega) (by omega)]
    exact List.mem_cons_of_mem _ h

/-- In a tree, a block whose parent encloses the parent of another block is not inside the
scope of that block. -/
theorem not_inSubtree_of_nested {d : Doc} (ht : TreeShaped d) {nP pC : Nat}
    (h : inSubtree d (parentAt d nP) pC = true) : inSubtree d (some pC) nP = false := by
  unfold inSubtree
  dsimp only
  rw [decide_eq_false_iff_not]
  intro hmem
  cases hp : parentAt d nP with
  | none =>
    obtain ⟨len, hlen⟩ : ∃ len, d.length = len + 1 := ⟨d.length - 1, by
      have := lt_of_mem_ancestors ht hmem
      cases hl : d.length with
      | zero => rw [hl] at hmem; simp [ancestors] at hmem
      | succ l => omega⟩
    rw [hlen] at hmem
    unfold ancestors at hmem
    simp [hp] at hmem
  | some pp =>
    rw [hp] at h
    unfold inSubtree at h
    dsimp only at h
    rw [decide_eq_true_iff] at h
    have h1 : pp < pC := lt_of_mem_ancestors ht h
    cases hl : d.length with
    | zero => rw [hl] at hmem; simp [ancestors] at hmem
    | succ l =>
      rw [hl] at hmem
      unfold ancestors at hmem
      rw [hp] at hmem
      rcases List.mem_cons.1 hmem with h2 | h2
      · omega
      · have := lt_of_mem_ancestors ht h2
        omega

/-! ## The texts while a scope is measured -/

theorem prepared_html (d : Doc) (m : Nat) : htmlAt (prepared d) m = htmlAt d m :=
  htmlAt_congr (prepared_map Elem.html (fun _ _ => rfl) addClass_keeps_html d) m

theorem started_skeleton (g : Doc → Nat → String) (d : Doc) (s : Nat) :
    (processUpTo g (prepared d) s).map Elem.skeleton = d.map Elem.skeleton :=
  (processUpTo_skeleton g (prepared d) s).trans (prepared_skeleton d)

theorem started_html (g : Doc → Nat → String) (d : Doc) (s m : Nat) :
    htmlAt (processUpTo g (prepared d) s) m = htmlAt d m :=
  ((processUpTo_spec g (prepared d) (BackedUp_prepared d) s).2 m).trans (prepared_html d m)

theorem started_classes (g : Doc → Nat → String) (d : Doc) (s : Nat) :
    (processUpTo g (prepared d) s).map Elem.classes = (prepared d).map Elem.classes :=
  processUpTo_map Elem.classes (fun _ _ => rfl) (fun _ _ => rfl) g (prepared d) s

theorem whileMeasured_html (g : Doc → Nat → String) (d : Doc) (s n i m : Nat) :
    htmlAt (whileMeasured g d s n i) m =
      htmlAt (emptyBlocks n (processUpTo g (prepared d) s)) m :=
  htmlAt_congr (measureUpTo_map Elem.html (fun _ _ => rfl) g _ _ i) m

theorem whileApplied_html (g : Doc → Nat → String) (d : Doc) (s n i m : Nat) :
    htmlAt (whileApplied g d s n i) m =
      htmlAt (emptyBlocks n (processUpTo g (prepared d) s)) m :=
  (htmlAt_congr (each_applyStep_map Elem.html (fun _ _ => rfl) _ _) m).trans
    (htmlAt_congr (measure_map Elem.html (fun _ _ => rfl) g _ _) m)

theorem whileProcessed_html (g : Doc → Nat → String) (d : Doc) (s n : Nat) (a : Bool)
    (i m : Nat) :
    htmlAt (whileProcessed g d s n a i) m =
      htmlAt (emptyBlocks n (processUpTo g (prepared d) s)) m := by
  cases a
  · exact whileMeasured_html g d s n i m
  · exact whileApplied_html g d s n i m

/-- The measuring traversal reaches position `j + 1` by clearing the override of the node at
position `j`; the document it then has is the one handed to `getStylesText` for that node. -/
theorem measureUpTo_succ (g : Doc → Nat → String) (root : Option Nat) (d : Doc) {j e : Nat}
    (hj : (find d root (fun _ => true))[j]? = some e) :
    measureUpTo g root d (j + 1) = measureStep g e (measureUpTo g root d j) ∧
    (measureUpTo g root d (j + 1)).1 = update (measureUpTo g root d j).1 e (setCssText "") := by
  have h1 : measureUpTo g root d (j + 1) = measureStep g e (measureUpTo g root d j) := by
    rw [measureUpTo_eq_foldl, measureUpTo_eq_foldl, List.take_succ, hj]
    simp [List.foldl_append]
  refine ⟨h1, ?_⟩
  rw [h1]
  unfold measureStep
  dsimp only
  split <;> rfl

/-- The text of the style block at position `j` between `emptyBlocks(n)` and `fillBlocks()`. -/
theorem htmlAt_whileProcessed (g : Doc → Nat → String) (d : Doc) (s n : Nat) (a : Bool)
    (i : Nat) {j m : Nat} (hj : (styleBlocks d)[j]? = some m) :
    htmlAt (whileProcessed g d s n a i) m =
      if isScoped d m && !hasClassAt (prepared d) n (dependsOn j) then some ""
      else htmlAt d m := by
  have hsk := started_skeleton g d s
  have hj2 : (styleBlocks (processUpTo g (prepared d) s))[j]? = some m := by
    rw [styleBlocks_congr hsk]; exact hj
  rw [whileProcessed_html, htmlAt_emptyBlocks n _ hj2, isScoped_congr hsk,
    hasClassAt_congr (started_classes g d s), started_html]

/-- The override of an element outside the scope of block `n` is the same after the scope
has been processed. -/
theorem cssTextAt_processStep_outside (g : Doc → Nat → String) (n : Nat) (t : Doc) {k : Nat}
    (hout : isScoped t n = true → inSubtree t (parentAt t n) k = false) :
    cssTextAt (processStep g n t) k = cssTextAt t k := by
  unfold processStep
  split
  · rename_i hs
    have hk := hout hs
    unfold processScope
    dsimp only
    have hsk : (emptyBlocks n t).map Elem.skeleton = t.map Elem.skeleton :=
      emptyBlocks_map _ skeleton_setHtml n t
    have hnot : k ∉ find (emptyBlocks n t) (parentAt (emptyBlocks n t) n) (fun _ => true) := by
      rw [parentAt_congr hsk, find_congr hsk _ (fun _ => rfl), mem_find]
      rintro ⟨_, h, _⟩
      rw [hk] at h
      exact Bool.false_ne_true h
    have hnot2 : k ∉ (find (emptyBlocks n t) (parentAt (emptyBlocks n t) n)
        (fun _ => true)).filter (fun m => !isStyleAt (emptyBlocks n t) m) :=
      fun h => hnot (List.mem_of_mem_filter h)
    have key := (measure_apply_spec g (emptyBlocks n t) n).2.2.2 k
    rw [if_neg hnot2, if_neg hnot] at key
    rw [cssTextAt_congr (fillBlocks_map Elem.cssText (fun _ _ => rfl) _), cssTextAt, key]
    exact cssTextAt_congr (emptyBlocks_map Elem.cssText (fun _ _ => rfl) n t) k
  · rfl

theorem treeShaped_of_forall {d : Doc}
    (h : ∀ k, k ∈ List.range d.length → ∀ p, parentAt d k = some p → p < k) : TreeShaped d := by
  intro k p hp
  exact h k (List.mem_range.2 (parentAt_lt_length hp)) p hp

theorem noMarkers_of_no_classes {d : Doc} (h : ∀ e, e ∈ d → e.classes = []) : NoMarkers d := by
  intro k i
  cases hk : d[k]? with
  | none => simp [classesAt, hk]
  | some e =>
    have := h e (List.getElem?_mem hk)
    simp [classesAt, hk, this]

/-- Without markers in the source document, block `n` carries `depends_on_j` exactly when it
lies in the subtree of the parent of the scoped block at position `j`. -/
theorem hasClassAt_prepared_eq_inSubtree (d : Doc) (hno : NoMarkers d) {n j m : Nat}
    (hn : n ∈ styleBlocks d) (hj : (styleBlocks d)[j]? = some m) (hms : isScoped d m = true) :
    hasClassAt (prepared d) n (dependsOn j) = inSubtree d (parentAt d m) n := by
  rw [Bool.eq_iff_iff, hasClassAt_prepared_dependsOn d hno]
  constructor
  · rintro ⟨m2, h1, _, h3⟩
    rw [hj] at h1
    have e : m = m2 := Option.some.inj h1
    subst e
    exact (mem_find.1 h3).2.1
  · intro h
    exact ⟨m, hj, hms, mem_find.2 ⟨(mem_styleBlocks.1 hn).1, h, (mem_styleBlocks.1 hn).2⟩⟩

/-- The text of the scoped block at position `j` between `emptyBlocks(n)` and `fillBlocks()`,
in a document without markers of its own. -/
theorem htmlAt_whileProcessed_tree (g : Doc → Nat → String) (d : Doc) (hno : NoMarkers d)
    (s : Nat) (a : Bool) (i : Nat) {n j m : Nat} (hn : n ∈ styleBlocks d)
    (hj : (styleBlocks d)[j]? = some m) (hms : isScoped d m = true) :
    htmlAt (whileProcessed g d s n a i) m =
      if inSubtree d (parentAt d m) n then originalAt (backupBlocks d) m else some "" := by
  rw [htmlAt_whileProcessed g d s n a i hj, hms,
    hasClassAt_prepared_eq_inSubtree d hno hn hj hms,
    originalAt_backupBlocks d (List.getElem?_mem hj) hms]
  cases inSubtree d (parentAt d m) n <;> simp

/-- The second traversal reaches position `s + 1` by one call of its callback. -/
theorem processUpTo_succ (g : Doc → Nat → String) (d : Doc) {s n : Nat}
    (hs : (styleBlocks d)[s]? = some n) :
    processUpTo g d (s + 1) = processStep g n (processUpTo g d s) := by
  unfold processUpTo
  rw [each_eq_foldl, each_eq_foldl, List.take_succ, hs]
  simp [List.foldl_append]

theorem scopeElements_congr {d d' : Doc} (h : d'.map Elem.skeleton = d.map Elem.skeleton)
    (b : Nat) : scopeElements d' b = scopeElements d b := by
  unfold scopeElements scopeNodes
  rw [parentAt_congr h, find_congr h _ (fun _ => rfl)]
  congr 1
  funext n
  rw [isStyleAt_congr h]

/-- The override that an element of the scope of the scoped block `n` has when the iteration
for `n` is over is the style computed for it during the measuring traversal of that
iteration. -/
theorem frozen_snapshot (g : Doc → Nat → String) (d : Doc) {s n e : Nat}
    (hs : (styleBlocks d)[s]? = some n) (hns : isScoped d n = true)
    (he : e ∈ scopeElements d n) :
    ∃ i, cssTextAt (processUpTo g (prepared d) (s + 1)) e =
      some (g (whileMeasured g d s n i) e) := by
  have hsk := started_skeleton g d s
  have hsk1 : (emptyBlocks n (processUpTo g (prepared d) s)).map Elem.skeleton =
      d.map Elem.skeleton := (emptyBlocks_map _ skeleton_setHtml n _).trans hsk
  have hs2 : (styleBlocks (prepared d))[s]? = some n := by
    rw [styleBlocks_congr (prepared_skeleton d)]; exact hs
  rw [← scopeElements_congr hsk1 n] at he
  obtain ⟨k, hk⟩ := List.mem_iff_getElem?.1 he
  obtain ⟨j, hj1, _, hj3, hj4⟩ :=
    (measure_apply_spec g (emptyBlocks n (processUpTo g (prepared d) s)) n).2.2.1 k e hk
  refine ⟨j + 1, ?_⟩
  have hstep : processUpTo g (prepared d) (s + 1) =
      processScope g n (processUpTo g (prepared d) s) := by
    rw [processUpTo_succ g (prepared d) hs2]
    unfold processStep
    rw [if_pos (by rw [isScoped_congr hsk]; exact hns)]
  have hw : whileMeasured g d s n (j + 1) =
      update (measureUpTo g (parentAt (emptyBlocks n (processUpTo g (prepared d) s)) n)
        (emptyBlocks n (processUpTo g (prepared d) s)) j).1 e (setCssText "") :=
    (measureUpTo_succ g _ _ hj1).2
  rw [hw, ← hj3, ← hj4, hstep]
  exact cssTextAt_congr (fillBlocks_map Elem.cssText (fun _ _ => rfl) _) e

/-- Past the end of the list of style blocks the second traversal has nothing left to do. -/
theorem processUpTo_of_length_le (g : Doc → Nat → String) (d : Doc) {t : Nat}
    (h : (styleBlocks d).length ≤ t) : processUpTo g d t = processScopes g d := by
  unfold processUpTo processScopes
  rw [List.take_of_length_le h]

/-- The override of an element that lies in the scope of no scoped block after position `s`
is the same at every later position of the second traversal. -/
theorem cssTextAt_processUpTo_later (g : Doc → Nat → String) (d : Doc) {s e : Nat}
    (hlater : ∀ s' n', s < s' → (styleBlocks d)[s']? = some n' → isScoped d n' = true →
      inSubtree d (parentAt d n') e = false) (k : Nat) :
    cssTextAt (processUpTo g (prepared d) (s + 1 + k)) e =
      cssTextAt (processUpTo g (prepared d) (s + 1)) e := by
  induction k with
  | zero => rfl
  | succ k ih =>
    rw [← ih]
    cases hn : (styleBlocks (prepared d))[s + 1 + k]? with
    | none =>
      have hle : (styleBlocks (prepared d)).length ≤ s + 1 + k := by
        by_contra hlt
        have := List.getElem?_eq_getElem (Nat.lt_of_not_le hlt)
        rw [hn] at this
        exact Option.noConfusion this
      have e1 : s + 1 + (k + 1) = s + 1 + k + 1 := by omega
      rw [e1, processUpTo_of_length_le g (prepared d) hle,
        processUpTo_of_length_le g (prepared d) (Nat.le_succ_of_le hle)]
    | some n' =>
      have e1 : s + 1 + (k + 1) = s + 1 + k + 1 := by omega
      rw [e1, processUpTo_succ g (prepared d) hn]
      have hsk := started_skeleton g d (s + 1 + k)
      apply cssTextAt_processStep_outside
      intro hsc
      rw [isScoped_congr hsk] at hsc
      rw [inSubtree_congr hsk, parentAt_congr hsk]
      apply hlater (s + 1 + k) n' (by omega) _ hsc
      rw [← styleBlocks_congr (prepared_skeleton d)]
      exact hn

/-- An element that lies in the scope of no scoped block after position `s` has, when
`$.scoped()` returns, the override it had when the iteration for position `s` was over. -/
theorem cssTextAt_runScoped_of_no_later_scope (g : Doc → Nat → String) (d : Doc) {s e : Nat}
    (hlater : ∀ s' n', s < s' → (styleBlocks d)[s']? = some n' → isScoped d n' = true →
      inSubtree d (parentAt d n') e = false) :
    cssTextAt (runScoped g d) e = cssTextAt (processUpTo g (prepared d) (s + 1)) e := by
  have hrun : runScoped g d = clearScoped (processScopes g (prepared d)) := rfl
  rw [hrun, cssTextAt_congr (clearScoped_map Elem.cssText (fun _ _ => rfl) _),
    ← cssTextAt_processUpTo_later g d hlater (styleBlocks (prepared d)).length,
    processUpTo_of_length_le g (prepared d) (by omega)]

/-- In `siblingDoc` the element of the first scope (node 3) lies in the scope of no scoped
block after position 0. -/
theorem siblingDoc_no_later_scope (s' n' : Nat) (h0 : 0 < s')
    (hn : (styleBlocks siblingDoc)[s']? = some n') (hs : isScoped siblingDoc n' = true) :
    inSubtree siblingDoc (parentAt siblingDoc n') 3 = false := by
  have hl : styleBlocks siblingDoc = [2, 5, 7] := by decide
  rw [hl] at hn
  match s', h0, hn with
  | 1, _, hn =>
    have e : n' = 5 := by simpa using hn.symm
    subst e
    decide
  | 2, _, hn =>
    have e : n' = 7 := by simpa using hn.symm
    subst e
    exact absurd hs (by decide)
  | k + 3, _, hn => simp at hn

/-! ## The claims -/

/-- C1 (as amended): `emptyBlocks(currentBlock)` empties the scoped block at position `j`
exactly when `currentBlock` itself does not carry the class `depends_on_j`, and otherwise
leaves its text alone; the text of every node that is not a scoped style block is left
alone. -/
theorem C1_emptyBlocks_reads_current_block (d : Doc) (currentBlock : Nat) :
    (∀ j m, (styleBlocks d)[j]? = some m → isScoped d m = true →
      htmlAt (emptyBlocks currentBlock d) m =
        if hasClassAt d currentBlock (dependsOn j) then htmlAt d m else some "") ∧
    (∀ m, ¬ (m ∈ styleBlocks d ∧ isScoped d m = true) →
      htmlAt (emptyBlocks currentBlock d) m = htmlAt d m) := by
  constructor
  · intro j m hj hs
    rw [htmlAt_emptyBlocks currentBlock d hj, hs]
    cases hasClassAt d currentBlock (dependsOn j) <;> simp
  · intro m hm
    show Option.map Elem.html (emptyBlocks currentBlock d)[m]? = _
    rw [getElem?_emptyBlocks_of_not_scoped currentBlock d hm]
    rfl

theorem C1_emptyBlocks_reads_current_block_witness :
    (styleBlocks (prepared nestedDoc))[1]? = some 3 ∧ isScoped (prepared nestedDoc) 3 = true ∧
    hasClassAt (prepared nestedDoc) 1 (dependsOn 1) = false ∧
    htmlAt (emptyBlocks 1 (prepared nestedDoc)) 3 =
      (if hasClassAt (prepared nestedDoc) 1 (dependsOn 1) then htmlAt (prepared nestedDoc) 3
        else some "") :=
  ⟨by decide, by decide, by decide,
    (C1_emptyBlocks_reads_current_block (prepared nestedDoc) 1).1 1 3 (by decide) (by decide)⟩

/-- C1 fails as stated: after the dependency pass on `nestedDoc`, the scoped block at
position 1 (node 3) has position 0 in its dependency set, and still `emptyBlocks` run for
the block at position 0 (node 1) empties it. -/
theorem C1_counterexample :
    (styleBlocks nestedDoc)[0]? = some 1 ∧ (styleBlocks nestedDoc)[1]? = some 3 ∧
    isScoped nestedDoc 1 = true ∧ isScoped nestedDoc 3 = true ∧
    hasClassAt (prepared nestedDoc) 3 (dependsOn 0) = true ∧
    htmlAt (prepared nestedDoc) 3 = some "color:blue;" ∧
    htmlAt (emptyBlocks 1 (prepared nestedDoc)) 3 = some "" := by
  decide

/-- C2 (as amended): in a tree-shaped document without markers of its own, let the scoped
block `C` be nested inside the scope of the scoped block `P`.  At every moment between
`emptyBlocks(P)` and `fillBlocks()` the text of `C` is empty and that of `P` is its backed-up
original; at every moment between `emptyBlocks(C)` and `fillBlocks()` both texts are the
backed-up originals. -/
theorem C2_nested_scope_texts (g : Doc → Nat → String) (d : Doc) (hno : NoMarkers d)
    (htree : TreeShaped d) (sP nP sC nC pC : Nat)
    (hP : (styleBlocks d)[sP]? = some nP) (hC : (styleBlocks d)[sC]? = some nC)
    (hPs : isScoped d nP = true) (hCs : isScoped d nC = true)
    (hpar : parentAt d nC = some pC) (hnest : inSubtree d (parentAt d nP) pC = true)
    (applying : Bool) (i : Nat) :
    htmlAt (whileProcessed g d sP nP applying i) nC = some "" ∧
    htmlAt (whileProcessed g d sP nP applying i) nP = originalAt (backupBlocks d) nP ∧
    htmlAt (whileProcessed g d sC nC applying i) nC = originalAt (backupBlocks d) nC ∧
    htmlAt (whileProcessed g d sC nC applying i) nP = originalAt (backupBlocks d) nP := by
  have hPm := List.getElem?_mem hP
  have hCm := List.getElem?_mem hC
  have h1 : inSubtree d (parentAt d nC) nP = false := by
    rw [hpar]; exact not_inSubtree_of_nested htree hnest
  have h2 : inSubtree d (parentAt d nP) nC = true := inSubtree_child htree _ hpar hnest
  have h3 : inSubtree d (parentAt d nP) nP = true :=
    inSubtree_parent_self d (lt_length_of_mem_styleBlocks hPm)
  have h4 : inSubtree d (parentAt d nC) nC = true :=
    inSubtree_parent_self d (lt_length_of_mem_styleBlocks hCm)
  refine ⟨?_, ?_, ?_, ?_⟩
  · rw [htmlAt_whileProcessed_tree g d hno sP applying i hPm hC hCs, h1]; rfl
  · rw [htmlAt_whileProcessed_tree g d hno sP applying i hPm hP hPs, h3]; rfl
  · rw [htmlAt_whileProcessed_tree g d hno sC applying i hCm hC hCs, h4]; rfl
  · rw [htmlAt_whileProcessed_tree g d hno sC applying i hCm hP hPs, h2]; rfl

theorem C2_nested_scope_texts_witness :
    NoMarkers nestedDoc ∧ TreeShaped nestedDoc ∧
    inSubtree nestedDoc (parentAt nestedDoc 1) 2 = true ∧
    htmlAt (whileProcessed naiveCascade nestedDoc 1 3 false 2) 1 = some "color:red;" ∧
    (htmlAt (whileProcessed naiveCascade nestedDoc 0 1 false 2) 3 = some "" ∧
      htmlAt (whileProcessed naiveCascade nestedDoc 0 1 false 2) 1 =
        originalAt (backupBlocks nestedDoc) 1 ∧
      htmlAt (whileProcessed naiveCascade nestedDoc 1 3 false 2) 3 =
        originalAt (backupBlocks nestedDoc) 3 ∧
      htmlAt (whileProcessed naiveCascade nestedDoc 1 3 false 2) 1 =
        originalAt (backupBlocks nestedDoc) 1) :=
  ⟨noMarkers_of_no_classes (by decide), treeShaped_of_forall (by decide), by decide, by decide,
    C2_nested_scope_texts naiveCascade nestedDoc (noMarkers_of_no_classes (by decide))
      (treeShaped_of_forall (by decide)) 0 1 1 3 2 (by decide) (by decide) (by decide)
      (by decide) (by decide) (by decide) false 2⟩

/-- C2 fails as stated: in `nestedDoc` the parent (node 2) of the scoped block `C` (node 3)
is a proper descendant of the parent (node 0) of the scoped block `P` (node 1), the backed-up
original of `C` is not empty, and while the subtree of `P` is measured, and until
`fillBlocks`, the text of `C` is empty; the paragraph in the scope of `C` is frozen with the
rules of `P` alone. -/
theorem C2_counterexample :
    (styleBlocks nestedDoc)[0]? = some 1 ∧ (styleBlocks nestedDoc)[1]? = some 3 ∧
    isScoped nestedDoc 1 = true ∧ isScoped nestedDoc 3 = true ∧
    parentAt nestedDoc 3 = some 2 ∧ inSubtree nestedDoc (parentAt nestedDoc 1) 2 = true ∧
    originalAt (backupBlocks nestedDoc) 3 = some "color:blue;" ∧
    htmlAt (whileProcessed naiveCascade nestedDoc 0 1 false 0) 3 = some "" ∧
    htmlAt (whileProcessed naiveCascade nestedDoc 0 1 false 3) 3 = some "" ∧
    htmlAt (whileProcessed naiveCascade nestedDoc 0 1 true 3) 3 = some "" ∧
    cssTextAt (processScope naiveCascade 1 (prepared nestedDoc)) 4 = some "color:red;" := by
  decide

/-- C3 (as amended): in a document without markers of its own, let `S1` and `S2` be scoped
blocks neither of which lies in the subtree of the parent of the other.  While the subtree of
`S1` is measured, and until `fillBlocks`, the text of `S1` is its original and the text of
`S2` is empty, and the other way round for `S2`.  Every element of the scope of either block
is frozen, in the iteration of that block, with a style computed in such a document, and it
still has that override when `$.scoped()` returns if it lies in the scope of no scoped block
later in document order.  After `$.scoped()` both blocks are empty. -/
theorem C3_sibling_scopes (g : Doc → Nat → String) (d : Doc) (hno : NoMarkers d)
    (s1 n1 s2 n2 : Nat)
    (h1 : (styleBlocks d)[s1]? = some n1) (h2 : (styleBlocks d)[s2]? = some n2)
    (hs1 : isScoped d n1 = true) (hs2 : isScoped d n2 = true)
    (h12 : inSubtree d (parentAt d n2) n1 = false)
    (h21 : inSubtree d (parentAt d n1) n2 = false) :
    (∀ applying i,
      htmlAt (whileProcessed g d s1 n1 applying i) n1 = originalAt (backupBlocks d) n1 ∧
      htmlAt (whileProcessed g d s1 n1 applying i) n2 = some "") ∧
    (∀ applying i,
      htmlAt (whileProcessed g d s2 n2 applying i) n2 = originalAt (backupBlocks d) n2 ∧
      htmlAt (whileProcessed g d s2 n2 applying i) n1 = some "") ∧
    (∀ e, e ∈ scopeElements d n1 → ∃ i,
      cssTextAt (processUpTo g (prepared d) (s1 + 1)) e =
        some (g (whileProcessed g d s1 n1 false i) e) ∧
      ((∀ s' n', s1 < s' → (styleBlocks d)[s']? = some n' → isScoped d n' = true →
          inSubtree d (parentAt d n') e = false) →
        cssTextAt (runScoped g d) e = some (g (whileProcessed g d s1 n1 false i) e))) ∧
    (∀ e, e ∈ scopeElements d n2 → ∃ i,
      cssTextAt (processUpTo g (prepared d) (s2 + 1)) e =
        some (g (whileProcessed g d s2 n2 false i) e) ∧
      ((∀ s' n', s2 < s' → (styleBlocks d)[s']? = some n' → isScoped d n' = true →
          inSubtree d (parentAt d n') e = false) →
        cssTextAt (runScoped g d) e = some (g (whileProcessed g d s2 n2 false i) e))) ∧
    htmlAt (runScoped g d) n1 = some "" ∧ htmlAt (runScoped g d) n2 = some "" := by
  have hm1 := List.getElem?_mem h1
  have hm2 := List.getElem?_mem h2
  have e1 : inSubtree d (parentAt d n1) n1 = true :=
    inSubtree_parent_self d (lt_length_of_mem_styleBlocks hm1)
  have e2 : inSubtree d (parentAt d n2) n2 = true :=
    inSubtree_parent_self d (lt_length_of_mem_styleBlocks hm2)
  have hfin : ∀ m, m ∈ styleBlocks d → isScoped d m = true →
      htmlAt (runScoped g d) m = some "" := by
    intro m hm hs
    have hsk : (processScopes g (prepared d)).map Elem.skeleton = d.map Elem.skeleton := by
      rw [← processUpTo_length, styleBlocks_congr (prepared_skeleton d)]
      exact started_skeleton g d _
    have hrun : runScoped g d = clearScoped (processScopes g (prepared d)) := rfl
    rw [hrun]
    apply htmlAt_clearScoped
    · rw [styleBlocks_congr hsk]; exact hm
    · rw [isScoped_congr hsk]; exact hs
  have hfrozen : ∀ s n e, (styleBlocks d)[s]? = some n → isScoped d n = true →
      e ∈ scopeElements d n → ∃ i,
      cssTextAt (processUpTo g (prepared d) (s + 1)) e =
        some (g (whileProcessed g d s n false i) e) ∧
      ((∀ s' n', s < s' → (styleBlocks d)[s']? = some n' → isScoped d n' = true →
          inSubtree d (parentAt d n') e = false) →
        cssTextAt (runScoped g d) e = some (g (whileProcessed g d s n false i) e)) := by
    intro s n e hs hns he
    obtain ⟨i, hi⟩ := frozen_snapshot g d hs hns he
    exact ⟨i, hi, fun hlater => (cssTextAt_runScoped_of_no_later_scope g d hlater).trans hi⟩
  refine ⟨?_, ?_, fun e he => hfrozen s1 n1 e h1 hs1 he,
    fun e he => hfrozen s2 n2 e h2 hs2 he, hfin n1 hm1 hs1, hfin n2 hm2 hs2⟩
  · intro a i
    constructor
    · rw [htmlAt_whileProcessed_tree g d hno s1 a i hm1 h1 hs1, e1]; rfl
    · rw [htmlAt_whileProcessed_tree g d hno s1 a i hm1 h2 hs2, h12]; rfl
  · intro a i
    constructor
    · rw [htmlAt_whileProcessed_tree g d hno s2 a i hm2 h2 hs2, e2]; rfl
    · rw [htmlAt_whileProcessed_tree g d hno s2 a i hm2 h1 hs1, h21]; rfl

theorem C3_sibling_scopes_witness :
    NoMarkers siblingDoc ∧ scopeElements siblingDoc 2 = [3] ∧
    (∀ s' n', 0 < s' → (styleBlocks siblingDoc)[s']? = some n' →
      isScoped siblingDoc n' = true →
      inSubtree siblingDoc (parentAt siblingDoc n') 3 = false) ∧
    cssTextAt (runScoped naiveCascade siblingDoc) 3 = some "color:red;margin:0;" ∧
    cssTextAt (runScoped naiveCascade siblingDoc) 6 = some "color:blue;margin:0;" ∧
    originalAt (backupBlocks siblingDoc) 2 = some "color:red;" ∧
    ((∀ applying i, htmlAt (whileProcessed naiveCascade siblingDoc 0 2 applying i) 2 =
        originalAt (backupBlocks siblingDoc) 2 ∧
      htmlAt (whileProcessed naiveCascade siblingDoc 0 2 applying i) 5 = some "") ∧
    (∀ applying i, htmlAt (whileProcessed naiveCascade siblingDoc 1 5 applying i) 5 =
        originalAt (backupBlocks siblingDoc) 5 ∧
      htmlAt (whileProcessed naiveCascade siblingDoc 1 5 applying i) 2 = some "") ∧
    (∀ e, e ∈ scopeElements siblingDoc 2 → ∃ i,
      cssTextAt (processUpTo naiveCascade (prepared siblingDoc) (0 + 1)) e =
        some (naiveCascade (whileProcessed naiveCascade siblingDoc 0 2 false i) e) ∧
      ((∀ s' n', 0 < s' → (styleBlocks siblingDoc)[s']? = some n' →
          isScoped siblingDoc n' = true →
          inSubtree siblingDoc (parentAt siblingDoc n') e = false) →
        cssTextAt (runScoped naiveCascade siblingDoc) e =
          some (naiveCascade (whileProcessed naiveCascade siblingDoc 0 2 false i) e))) ∧
    (∀ e, e ∈ scopeElements siblingDoc 5 → ∃ i,
      cssTextAt (processUpTo naiveCascade (prepared siblingDoc) (1 + 1)) e =
        some (naiveCascade (whileProcessed naiveCascade siblingDoc 1 5 false i) e) ∧
      ((∀ s' n', 1 < s' → (styleBlocks siblingDoc)[s']? = some n' →
          isScoped siblingDoc n' = true →
          inSubtree siblingDoc (parentAt siblingDoc n') e = false) →
        cssTextAt (runScoped naiveCascade siblingDoc) e =
          some (naiveCascade (whileProcessed naiveCascade siblingDoc 1 5 false i) e))) ∧
    htmlAt (runScoped naiveCascade siblingDoc) 2 = some "" ∧
    htmlAt (runScoped naiveCascade siblingDoc) 5 = some "") :=
  ⟨noMarkers_of_no_classes (by decide), by decide, siblingDoc_no_later_scope,
    by decide, by decide, by decide,
    C3_sibling_scopes naiveCascade siblingDoc (noMarkers_of_no_classes (by decide)) 0 2 1 5
      (by decide) (by decide) (by decide) (by decide) (by decide) (by decide)⟩

/-- C3 fails as stated, on two documents with the scoped blocks at nodes 2 and 5 in unrelated
sibling scopes.  In `markedDoc` node 2 carries the class `depends_on_1` in the page source,
and while its subtree is measured the text of node 5 is not empty; the element of the first
scope (node 3) ends with the rules of both blocks.  In `threeDoc`, which has no marker of its
own, the texts are as claimed while either subtree is measured and node 3 leaves the
iteration of its block frozen with the rules of node 2, but the scope of the third scoped
block (node 7, later in document order) contains node 3: its iteration measures node 3 again
with nodes 2 and 5 empty, and node 3 ends without the rules of its own block. -/
theorem C3_counterexample :
    ((styleBlocks markedDoc)[0]? = some 2 ∧ (styleBlocks markedDoc)[1]? = some 5 ∧
      isScoped markedDoc 2 = true ∧ isScoped markedDoc 5 = true ∧
      inSubtree markedDoc (parentAt markedDoc 5) 2 = false ∧
      inSubtree markedDoc (parentAt markedDoc 2) 5 = false ∧
      htmlAt (whileProcessed naiveCascade markedDoc 0 2 false 0) 5 = some "color:blue;" ∧
      htmlAt (whileProcessed naiveCascade markedDoc 0 2 false 2) 5 = some "color:blue;" ∧
      cssTextAt (runScoped naiveCascade markedDoc) 3 = some "color:red;color:blue;") ∧
    (NoMarkers threeDoc ∧
      (styleBlocks threeDoc)[0]? = some 2 ∧ (styleBlocks threeDoc)[1]? = some 5 ∧
      (styleBlocks threeDoc)[2]? = some 7 ∧
      isScoped threeDoc 2 = true ∧ isScoped threeDoc 5 = true ∧ isScoped threeDoc 7 = true ∧
      inSubtree threeDoc (parentAt threeDoc 5) 2 = false ∧
      inSubtree threeDoc (parentAt threeDoc 2) 5 = false ∧
      scopeElements threeDoc 2 = [3] ∧
      inSubtree threeDoc (parentAt threeDoc 7) 3 = true ∧
      htmlAt (whileProcessed naiveCascade threeDoc 0 2 false 2) 2 = some "color:red;" ∧
      htmlAt (whileProcessed naiveCascade threeDoc 0 2 false 2) 5 = some "" ∧
      cssTextAt (processUpTo naiveCascade (prepared threeDoc) 1) 3 =
        some "color:red;margin:0;" ∧
      htmlAt (whileProcessed naiveCascade threeDoc 2 7 false 3) 2 = some "" ∧
      cssTextAt (runScoped naiveCascade threeDoc) 3 = some "margin:0;") :=
  ⟨by decide, noMarkers_of_no_classes (by decide), by decide⟩

/-- C4: for the block `b` and the elements `e0, e1, ...` of its scope (the non-style
descendants of its parent in document order), the measuring traversal pushes exactly one
snapshot per element; when it reaches `ek` exactly `k` snapshots have been pushed and the
next one is the style computed for `ek` at that moment; after the applying traversal, and
after the scope has been processed, the override of `ek` is that `k`-th snapshot; the
holding area is empty again, and a style descendant keeps the empty override. -/
theorem C4_snapshot_apply_correspondence (g : Doc → Nat → String) (x : Doc) (b : Nat) :
    (measuredScope g (emptyBlocks b x) b).2.length = (scopeElements (emptyBlocks b x) b).length ∧
    (appliedScope g (emptyBlocks b x) b).2 = [] ∧
    processScope g b x = fillBlocks (appliedScope g (emptyBlocks b x) b).1 ∧
    (∀ k e, (scopeElements (emptyBlocks b x) b)[k]? = some e →
      ∃ j, (scopeNodes (emptyBlocks b x) b)[j]? = some e ∧
        (measureUpTo g (parentAt (emptyBlocks b x) b) (emptyBlocks b x) j).2.length = k ∧
        (measuredScope g (emptyBlocks b x) b).2[k]? =
          some (g (update (measureUpTo g (parentAt (emptyBlocks b x) b) (emptyBlocks b x) j).1 e
            (setCssText "")) e) ∧
        cssTextAt (appliedScope g (emptyBlocks b x) b).1 e =
          (measuredScope g (emptyBlocks b x) b).2[k]? ∧
        cssTextAt (processScope g b x) e = (measuredScope g (emptyBlocks b x) b).2[k]?) ∧
    (∀ n, n ∈ scopeNodes (emptyBlocks b x) b → isStyleAt (emptyBlocks b x) n = true →
      cssTextAt (appliedScope g (emptyBlocks b x) b).1 n = some "") := by
  obtain ⟨h1, h2, h3, h4⟩ := measure_apply_spec g (emptyBlocks b x) b
  refine ⟨h1, h2, rfl, ?_, ?_⟩
  · intro k e hk
    obtain ⟨j, hj1, hj2, hj3, hj4⟩ := h3 k e hk
    refine ⟨j, hj1, hj2, hj3, hj4, Eq.trans ?_ hj4⟩
    exact cssTextAt_congr (fillBlocks_map Elem.cssText (fun _ _ => rfl) _) e
  · intro n hn hst
    have hnot : n ∉ (find (emptyBlocks b x) (parentAt (emptyBlocks b x) b)
        (fun _ => true)).filter (fun m => !isStyleAt (emptyBlocks b x) m) := by
      intro h
      have := (List.mem_filter.1 h).2
      rw [hst] at this
      exact Bool.false_ne_true this
    have hn2 : n ∈ find (emptyBlocks b x) (parentAt (emptyBlocks b x) b) (fun _ => true) := hn
    have key := h4 n
    rw [if_neg hnot, if_pos hn2] at key
    obtain ⟨e, he⟩ := exists_getElem?_of_lt (mem_find.1 hn2).1
    show Option.map Elem.cssText (appliedScope g (emptyBlocks b x) b).1[n]? = some ""
    unfold appliedScope measuredScope
    rw [key, he]
    rfl

theorem C4_snapshot_apply_correspondence_witness :
    (measuredScope naiveCascade (emptyBlocks 1 (prepared nestedDoc)) 1).2.length = 2 ∧
    (scopeElements (emptyBlocks 1 (prepared nestedDoc)) 1) = [2, 4] ∧
    cssTextAt (processScope naiveCascade 1 (prepared nestedDoc)) 4 = some "color:red;" :=
  ⟨(C4_snapshot_apply_correspondence naiveCascade (prepared nestedDoc) 1).1.trans (by decide),
    by decide, by decide⟩

/-- C5: for a scoped style block `m`, `backupBlocks` records the text of `m`, and at every
position `s` of the second traversal and for every block `n`: `fillBlocks` run after
`emptyBlocks(n)`, directly or with the two traversals in between as `$.scoped` does, leaves
in `m` exactly the recorded text; so does every scoped block at the start of each iteration. -/
theorem C5_fill_after_empty_restores (g : Doc → Nat → String) (d : Doc) (m : Nat)
    (hm : m ∈ styleBlocks d) (hs : isScoped d m = true) :
    originalAt (backupBlocks d) m = htmlAt d m ∧
    (∀ n, htmlAt (fillBlocks (emptyBlocks n (backupBlocks d))) m =
      originalAt (backupBlocks d) m) ∧
    (∀ s n, htmlAt (fillBlocks (emptyBlocks n (processUpTo g (prepared d) s))) m =
      originalAt (backupBlocks d) m) ∧
    (∀ s n, htmlAt (processScope g n (processUpTo g (prepared d) s)) m =
      originalAt (backupBlocks d) m) ∧
    (∀ s, htmlAt (processUpTo g (prepared d) s) m = originalAt (backupBlocks d) m) := by
  have h0 := originalAt_backupBlocks d hm hs
  obtain ⟨t, ht⟩ := htmlAt_isSome_of_mem hm
  have hrec : ∀ s, originalAt (processUpTo g (prepared d) s) m = some t := by
    intro s
    have hb := BackedUp_processUpTo g (prepared d) (BackedUp_prepared d) s
    have hsk := started_skeleton g d s
    rw [hb m (by rw [styleBlocks_congr hsk]; exact hm) (by rw [isScoped_congr hsk]; exact hs),
      started_html, ht]
  have hm2 : ∀ s, m ∈ styleBlocks (processUpTo g (prepared d) s) := by
    intro s; rw [styleBlocks_congr (started_skeleton g d s)]; exact hm
  have hs2 : ∀ s, isScoped (processUpTo g (prepared d) s) m = true := by
    intro s; rw [isScoped_congr (started_skeleton g d s)]; exact hs
  have hbk : originalAt (backupBlocks d) m = some t := h0.trans ht
  rw [h0, ht]
  refine ⟨rfl, ?_, ?_, ?_, ?_⟩
  · intro n
    exact htmlAt_fill_of_record (emptyBlocks_map _ skeleton_setHtml n _)
      (emptyBlocks_map Elem.original (fun _ _ => rfl) n _)
      (by rw [styleBlocks_congr (backupBlocks_skeleton d)]; exact hm)
      (by rw [isScoped_congr (backupBlocks_skeleton d)]; exact hs) hbk
  · intro s n
    exact htmlAt_fill_of_record (emptyBlocks_map _ skeleton_setHtml n _)
      (emptyBlocks_map Elem.original (fun _ _ => rfl) n _) (hm2 s) (hs2 s) (hrec s)
  · intro s n
    exact htmlAt_fill_of_record (processScope_inner_skeleton g n _)
      (processScope_inner_original g n _) (hm2 s) (hs2 s) (hrec s)
  · intro s
    rw [started_html, ht]

theorem C5_fill_after_empty_restores_witness :
    3 ∈ styleBlocks nestedDoc ∧ isScoped nestedDoc 3 = true ∧
    originalAt (backupBlocks nestedDoc) 3 = some "color:blue;" ∧
    htmlAt (emptyBlocks 1 (processUpTo naiveCascade (prepared nestedDoc) 0)) 3 = some "" ∧
    htmlAt (fillBlocks (emptyBlocks 1 (processUpTo naiveCascade (prepared nestedDoc) 0))) 3 =
      originalAt (backupBlocks nestedDoc) 3 :=
  ⟨by decide, by decide, by decide, by decide,
    (C5_fill_after_empty_restores naiveCascade nestedDoc 3 (by decide) (by decide)).2.2.1 0 1⟩

/-- C6: after `$.scoped()` the text of every style block with the `scoped` marker is empty,
and the text of every style block without it is what it was before the call. -/
theorem C6_final_texts (g : Doc → Nat → String) (d : Doc) (m : Nat) (hm : m ∈ styleBlocks d) :
    (isScoped d m = true → htmlAt (runScoped g d) m = some "") ∧
    (isScoped d m = false → htmlAt (runScoped g d) m = htmlAt d m) := by
  have hsk : (processScopes g (prepared d)).map Elem.skeleton = d.map Elem.skeleton := by
    rw [← processUpTo_length]
    rw [styleBlocks_congr (prepared_skeleton d)]
    exact started_skeleton g d _
  have hrun : runScoped g d = clearScoped (processScopes g (prepared d)) := rfl
  rw [hrun]
  constructor
  · intro hs
    apply htmlAt_clearScoped
    · rw [styleBlocks_congr hsk]; exact hm
    · rw [isScoped_congr hsk]; exact hs
  · intro hs
    have hnot : ¬ (m ∈ styleBlocks (processScopes g (prepared d)) ∧
        isScoped (processScopes g (prepared d)) m = true) := by
      rw [isScoped_congr hsk, hs]
      exact fun h => Bool.false_ne_true h.2
    show Option.map Elem.html (clearScoped (processScopes g (prepared d)))[m]? = _
    rw [getElem?_clearScoped_of_not_scoped _ hnot, ← processUpTo_length]
    exact started_html g d _ m

theorem C6_final_texts_witness :
    7 ∈ styleBlocks siblingDoc ∧ 2 ∈ styleBlocks siblingDoc ∧
    htmlAt (runScoped naiveCascade siblingDoc) 2 = some "" ∧
    htmlAt (runScoped naiveCascade siblingDoc) 7 = some "margin:0;" :=
  ⟨by decide, by decide,
    (C6_final_texts naiveCascade siblingDoc 2 (by decide)).1 (by decide),
    by decide⟩

/-- C7: an element that lies in the subtree of the parent of no scoped style block has the
same per-element style override after `$.scoped()` as before. -/
theorem C7_outside_every_scope_untouched (g : Doc → Nat → String) (d : Doc) (k : Nat)
    (hout : ∀ n, n ∈ styleBlocks d → isScoped d n = true →
      inSubtree d (parentAt d n) k = false) :
    cssTextAt (runScoped g d) k = cssTextAt d k := by
  have h1 : cssTextAt (prepared d) k = cssTextAt d k :=
    cssTextAt_congr (prepared_map Elem.cssText (fun _ _ => rfl) addClass_keeps_cssText d) k
  have key := each_invariant (fun _ n acc => processStep g n acc)
    (fun t : Doc => t.map Elem.skeleton = d.map Elem.skeleton ∧
      cssTextAt t k = cssTextAt d k)
    (styleBlocks (prepared d)) (prepared d) ⟨prepared_skeleton d, h1⟩ (by
      intro j n t hj ⟨hsk, hc⟩
      refine ⟨?_, ?_⟩
      · rw [processStep_map _ skeleton_setHtml skeleton_setCssText]; exact hsk
      · rw [cssTextAt_processStep_outside g n t, hc]
        intro hs
        rw [isScoped_congr hsk] at hs
        rw [inSubtree_congr hsk, parentAt_congr hsk]
        apply hout n _ hs
        rw [← styleBlocks_congr (prepared_skeleton d)]
        exact List.getElem?_mem hj)
  unfold runScoped
  rw [cssTextAt_congr (clearScoped_map Elem.cssText (fun _ _ => rfl) _)]
  exact key.2

theorem C7_outside_every_scope_untouched_witness :
    (∀ n, n ∈ styleBlocks nestedDoc → isScoped nestedDoc n = true →
      inSubtree nestedDoc (parentAt nestedDoc n) 0 = false) ∧
    cssTextAt (runScoped naiveCascade nestedDoc) 0 = cssTextAt nestedDoc 0 :=
  ⟨by decide, C7_outside_every_scope_untouched naiveCascade nestedDoc 0 (by decide)⟩

/-- C8: in a document without `depends_on_*` classes of its own, after the dependency pass a
style block `k` carries `depends_on_i` exactly when the style block at position `i` is scoped
and `k` lies in the subtree of its parent; every scoped block carries the marker of its own
position. -/
theorem C8_dependency_markers (d : Doc) (hno : NoMarkers d) :
    (∀ k i, k ∈ styleBlocks d →
      (hasClassAt (prepared d) k (dependsOn i) = true ↔
        ∃ n, (styleBlocks d)[i]? = some n ∧ isScoped d n = true ∧
          inSubtree d (parentAt d n) k = true)) ∧
    (∀ i n, (styleBlocks d)[i]? = some n → isScoped d n = true →
      hasClassAt (prepared d) n (dependsOn i) = true) := by
  constructor
  · intro k i hk
    rw [hasClassAt_prepared_dependsOn d hno]
    constructor
    · rintro ⟨n, h1, h2, h3⟩
      exact ⟨n, h1, h2, (mem_find.1 h3).2.1⟩
    · rintro ⟨n, h1, h2, h3⟩
      exact ⟨n, h1, h2, mem_find.2 ⟨(mem_styleBlocks.1 hk).1, h3, (mem_styleBlocks.1 hk).2⟩⟩
  · intro i n hi hs
    rw [hasClassAt_prepared_dependsOn d hno]
    have hn := List.getElem?_mem hi
    exact ⟨n, hi, hs, mem_find.2 ⟨(mem_styleBlocks.1 hn).1,
      inSubtree_parent_self d (mem_styleBlocks.1 hn).1, (mem_styleBlocks.1 hn).2⟩⟩

theorem C8_dependency_markers_witness :
    NoMarkers nestedDoc ∧ hasClassAt (prepared nestedDoc) 3 (dependsOn 0) = true ∧
    hasClassAt (prepared nestedDoc) 1 (dependsOn 1) = false ∧
    hasClassAt (prepared nestedDoc) 3 (dependsOn 1) = true :=
  ⟨noMarkers_of_no_classes (by decide), by decide, by decide,
    (C8_dependency_markers nestedDoc (noMarkers_of_no_classes (by decide))).2 1 3
      (by decide) (by decide)⟩

/-- C9 (a defect of the code): for `computedSample` the index key `0` names the property
`color`, which resolves to the defined value `red`, but `parseInt('0', 10)` is zero and so
false in the condition, and the returned text has no entry for it; the text asked for by
the specification has one. -/
theorem C9_first_index_key_dropped :
    parseInt10 "0" = some 0 ∧ truthy (parseInt10 "0") = false ∧
    getProp computedSample "0" = some "color" ∧
    getProp computedSample (camelize "color") = some "red" ∧
    camelize "font-size" = "fontSize" ∧
    getStylesTextFirefox computedSample = "font-size:12px;\n" ∧
    specStylesText computedSample = "color:red;\nfont-size:12px;\n" := by
  decide

/-- C10 (as amended): in a document without markers of its own, for scoped blocks `s` (node
`n`) and `j` (node `m`): block `s` carries `depends_on_j` exactly when it lies in the subtree
of the parent of block `j`; `emptyBlocks(s)`, run where `$.scoped()` runs it, empties block
`j` exactly when `s` does not carry `depends_on_j`; so while the scope of `s` is measured,
and until `fillBlocks`, the text of `j` is its original if `s` lies in the scope of `j` and
empty otherwise, and the own text of `s` is its original. -/
theorem C10_emptyBlocks_keeps_enclosing_scopes (g : Doc → Nat → String) (d : Doc)
    (hno : NoMarkers d) (s n j m : Nat)
    (hs : (styleBlocks d)[s]? = some n) (hns : isScoped d n = true)
    (hj : (styleBlocks d)[j]? = some m) (hms : isScoped d m = true) :
    (hasClassAt (prepared d) n (dependsOn j) = true ↔ inSubtree d (parentAt d m) n = true) ∧
    htmlAt (emptyBlocks n (processUpTo g (prepared d) s)) m =
      (if hasClassAt (processUpTo g (prepared d) s) n (dependsOn j) then
        originalAt (backupBlocks d) m else some "") ∧
    (∀ applying i, htmlAt (whileProcessed g d s n applying i) m =
      if inSubtree d (parentAt d m) n then originalAt (backupBlocks d) m else some "") ∧
    (∀ applying i, htmlAt (whileProcessed g d s n applying i) n =
      originalAt (backupBlocks d) n) := by
  have hn := List.getElem?_mem hs
  have hcl := hasClassAt_prepared_eq_inSubtree d hno hn hj hms
  refine ⟨by rw [hcl], ?_, ?_, ?_⟩
  · have h0 := htmlAt_whileProcessed_tree g d hno s false 0 hn hj hms
    rw [whileProcessed_html] at h0
    rw [h0, hasClassAt_congr (started_classes g d s), hcl]
  · intro a i
    exact htmlAt_whileProcessed_tree g d hno s a i hn hj hms
  · intro a i
    rw [htmlAt_whileProcessed_tree g d hno s a i hn hs hns,
      inSubtree_parent_self d (lt_length_of_mem_styleBlocks hn)]
    rfl

theorem C10_emptyBlocks_keeps_enclosing_scopes_witness :
    NoMarkers nestedDoc ∧
    inSubtree nestedDoc (parentAt nestedDoc 1) 3 = true ∧
    inSubtree nestedDoc (parentAt nestedDoc 3) 1 = false ∧
    htmlAt (whileProcessed naiveCascade nestedDoc 1 3 false 1) 1 = some "color:red;" ∧
    (∀ applying i, htmlAt (whileProcessed naiveCascade nestedDoc 1 3 applying i) 1 =
      if inSubtree nestedDoc (parentAt nestedDoc 1) 3 then
        originalAt (backupBlocks nestedDoc) 1 else some "") :=
  ⟨noMarkers_of_no_classes (by decide), by decide, by decide, by decide,
    (C10_emptyBlocks_keeps_enclosing_scopes naiveCascade nestedDoc
      (noMarkers_of_no_classes (by decide)) 1 3 0 1 (by decide) (by decide) (by decide)
      (by decide)).2.2.1⟩

/-- C10 fails as stated: in `markedDoc` the scoped block at position 0 (node 2) is not inside
the subtree of the parent of the scoped block at position 1 (node 5), but it carries the
class `depends_on_1` from the page source, so `emptyBlocks` run for it does not empty
node 5. -/
theorem C10_counterexample :
    (styleBlocks markedDoc)[0]? = some 2 ∧ (styleBlocks markedDoc)[1]? = some 5 ∧
    isScoped markedDoc 2 = true ∧ isScoped markedDoc 5 = true ∧
    hasClassAt (prepared markedDoc) 2 (dependsOn 1) = true ∧
    inSubtree markedDoc (parentAt markedDoc 5) 2 = false ∧
    htmlAt (prepared markedDoc) 5 = some "color:blue;" ∧
    htmlAt (emptyBlocks 2 (prepared markedDoc)) 5 = some "color:blue;" := by
  decide

end ScopedCSS
